import Mathlib

/-!
Verification development for the umple-lsp language server.

The definitions below are a shallow embedding of the server's symbol
index (`symbolIndex.ts`), import-reachability / shadow-workspace
subsystem and diagnostic remapper (`server.ts`).  External collaborators
(the tree-sitter parser, the filesystem, the node `path` library and the
JSON layer) are modelled at their observable boundaries:

* a parsed file is represented by its extracted observations (the list
  of `use` statements, the list of query captures), since the parser is
  an external component producing exactly those observations;
* the filesystem is an association list from absolute paths to contents;
* absolute filesystem paths are represented by their component lists
  (the segments between separators of an absolute path), and the node
  `path` functions (`normalize`, `dirname`, `basename`, `resolve`,
  `relative`) are modelled on that representation following their
  documented behaviour for absolute paths;
* JavaScript `Map` objects are modelled as association lists with
  JS insertion-order semantics (`set` updates in place or appends,
  `get` returns the first binding).
-/

namespace UmpleLsp

/-! ## String operations

The string functions of the platform (`String.endsWith`,
`String.startsWith`, `String.drop`, `String.split`) are modelled over
the character lists of the strings, following their documented
behaviour; the server only applies them to ASCII names and paths. -/

/-- `s.endsWith(suffix)`. -/
def strEndsWith (s suffix : String) : Bool := suffix.data.isSuffixOf s.data

/-- `s.startsWith(pre)`. -/
def strStartsWith (s pre : String) : Bool := pre.data.isPrefixOf s.data

/-- `s.drop n` / `s.substring(n)`. -/
def strDrop (s : String) (n : Nat) : String := String.mk (s.data.drop n)

def splitOnCharAux (sep : Char) : List Char → List Char → List (List Char)
  | [], acc => [acc.reverse]
  | c :: rest, acc =>
      if c = sep then acc.reverse :: splitOnCharAux sep rest []
      else splitOnCharAux sep rest (c :: acc)

/-- `s.split(sep)` for a one-character separator. -/
def strSplitOn (s : String) (sep : Char) : List String :=
  (splitOnCharAux sep s.data []).map String.mk

/-! ## Association maps with JavaScript `Map` semantics -/

/-- `Map.get`: the value bound to `k`, if any. -/
def mapGet {α β : Type} [DecidableEq α] (m : List (α × β)) (k : α) : Option β :=
  (m.find? (fun kv => kv.1 = k)).map (·.2)

/-- `Map.get(k) ?? d`. -/
def mapGetD {α β : Type} [DecidableEq α] (m : List (α × β)) (k : α) (d : β) : β :=
  (mapGet m k).getD d

/-- `Map.set`: update the binding in place if present, else append. -/
def mapSet {α β : Type} [DecidableEq α] (m : List (α × β)) (k : α) (v : β) :
    List (α × β) :=
  if m.any (fun kv => kv.1 = k) then
    m.map (fun kv => if kv.1 = k then (k, v) else kv)
  else
    m ++ [(k, v)]

/-- `Map.delete`: drop the binding for `k`. -/
def mapDelete {α β : Type} [DecidableEq α] (m : List (α × β)) (k : α) :
    List (α × β) :=
  m.filter (fun kv => kv.1 ≠ k)

theorem mapGet_nil {α β : Type} [DecidableEq α] (k : α) :
    mapGet ([] : List (α × β)) k = none := rfl

theorem mapGet_cons {α β : Type} [DecidableEq α]
    (a : α) (b : β) (m : List (α × β)) (k : α) :
    mapGet ((a, b) :: m) k = if a = k then some b else mapGet m k := by
  by_cases h : a = k
  · simp [mapGet, List.find?_cons_of_pos, h]
  · simp [mapGet, List.find?_cons_of_neg, h]

theorem mapGet_append {α β : Type} [DecidableEq α]
    (m₁ m₂ : List (α × β)) (k : α) :
    mapGet (m₁ ++ m₂) k =
      match mapGet m₁ k with
      | some v => some v
      | none => mapGet m₂ k := by
  unfold mapGet
  rw [List.find?_append]
  cases m₁.find? (fun kv => kv.1 = k) <;> simp [Option.or]

theorem mapGet_eq_none_of_not_any {α β : Type} [DecidableEq α]
    (m : List (α × β)) (k : α) (h : ¬ m.any (fun kv => kv.1 = k)) :
    mapGet m k = none := by
  unfold mapGet
  rw [List.find?_eq_none.mpr]
  · rfl
  · intro x hx hpx
    exact h (List.any_eq_true.mpr ⟨x, hx, hpx⟩)

theorem mapGet_map_update_self {α β : Type} [DecidableEq α]
    (m : List (α × β)) (k : α) (v : β) (h : m.any (fun kv => kv.1 = k)) :
    mapGet (m.map (fun kv => if kv.1 = k then (k, v) else kv)) k = some v := by
  induction m with
  | nil => simp at h
  | cons hd tl ih =>
    obtain ⟨a, b⟩ := hd
    rw [List.map_cons]
    by_cases hk : a = k
    · rw [if_pos (show ((a, b) : α × β).1 = k from hk), mapGet_cons, if_pos rfl]
    · rw [if_neg (show ¬ ((a, b) : α × β).1 = k from hk), mapGet_cons, if_neg hk]
      apply ih
      rcases List.any_eq_true.mp h with ⟨x, hx, hpx⟩
      rcases List.mem_cons.mp hx with hx0 | hxtl
      · exfalso; apply hk
        have : x.1 = k := of_decide_eq_true hpx
        rw [hx0] at this; exact this
      · exact List.any_eq_true.mpr ⟨x, hxtl, hpx⟩

theorem mapGet_map_update_ne {α β : Type} [DecidableEq α]
    (m : List (α × β)) (k k' : α) (v : β) (h : k' ≠ k) :
    mapGet (m.map (fun kv => if kv.1 = k then (k, v) else kv)) k' = mapGet m k' := by
  induction m with
  | nil => rfl
  | cons hd tl ih =>
    obtain ⟨a, b⟩ := hd
    rw [List.map_cons]
    by_cases hk : a = k
    · rw [if_pos (show ((a, b) : α × β).1 = k from hk), mapGet_cons, mapGet_cons,
        if_neg (fun hc => h hc.symm),
        if_neg (show ¬ a = k' from fun hc => h (hk ▸ hc).symm)]
      exact ih
    · rw [if_neg (show ¬ ((a, b) : α × β).1 = k from hk), mapGet_cons, mapGet_cons]
      exact if_congr Iff.rfl rfl ih

theorem mapGet_mapSet_self {α β : Type} [DecidableEq α]
    (m : List (α × β)) (k : α) (v : β) : mapGet (mapSet m k v) k = some v := by
  unfold mapSet
  by_cases h : m.any (fun kv => kv.1 = k)
  · rw [if_pos h]; exact mapGet_map_update_self m k v h
  · rw [if_neg h, mapGet_append, mapGet_eq_none_of_not_any m k h]
    rw [mapGet_cons, if_pos rfl]

theorem mapGet_mapSet_ne {α β : Type} [DecidableEq α]
    (m : List (α × β)) (k k' : α) (v : β) (h : k' ≠ k) :
    mapGet (mapSet m k v) k' = mapGet m k' := by
  unfold mapSet
  by_cases hc : m.any (fun kv => kv.1 = k)
  · rw [if_pos hc]; exact mapGet_map_update_ne m k k' v h
  · rw [if_neg hc, mapGet_append]
    have : mapGet [(k, v)] k' = none := by
      rw [mapGet_cons, if_neg (fun hc' => h hc'.symm)]; rfl
    rw [this]
    cases mapGet m k' <;> rfl

theorem mapGet_mapDelete_ne {α β : Type} [DecidableEq α]
    (m : List (α × β)) (k k' : α) (h : k' ≠ k) :
    mapGet (mapDelete m k) k' = mapGet m k' := by
  induction m with
  | nil => rfl
  | cons hd tl ih =>
    obtain ⟨a, b⟩ := hd
    unfold mapDelete
    rw [List.filter_cons]
    by_cases hk : a = k
    · have : (decide ¬((a, b).1 = k)) = false := by simp [hk]
      rw [this, if_neg (by simp)]
      rw [mapGet_cons, if_neg (by rw [hk]; exact fun hc => h hc.symm)]
      exact ih
    · have : (decide ¬((a, b).1 = k)) = true := by simp [hk]
      rw [this, if_pos rfl, mapGet_cons, mapGet_cons]
      exact if_congr Iff.rfl rfl ih

theorem mapGet_mapDelete_self {α β : Type} [DecidableEq α]
    (m : List (α × β)) (k : α) : mapGet (mapDelete m k) k = none := by
  induction m with
  | nil => rfl
  | cons hd tl ih =>
    obtain ⟨a, b⟩ := hd
    unfold mapDelete
    rw [List.filter_cons]
    by_cases hk : a = k
    · have : (decide ¬((a, b).1 = k)) = false := by simp [hk]
      rw [this, if_neg (by simp)]
      exact ih
    · have : (decide ¬((a, b).1 = k)) = true := by simp [hk]
      rw [this, if_pos rfl, mapGet_cons, if_neg hk]
      exact ih

/-! ## Path model

An absolute filesystem path is represented by its list of components
(the non-separator segments of the normalized absolute string form).
The node `path` library functions used by the server are modelled on
this representation:  `path.normalize` removes `.`, empty and `..`
segments (a `..` above the root disappears, as for absolute paths in
node), `path.dirname` drops the last component, `path.basename` is the
last component, and `path.resolve(dir, p)` appends the segments of a
relative `p` to `dir` and normalizes (an absolute `p` passes through
normalization alone). -/

abbrev Path := List String

/-- One step of `path.normalize` over a segment list. -/
def normStep (acc : List String) (s : String) : List String :=
  if s = "" ∨ s = "." then acc
  else if s = ".." then acc.dropLast
  else acc ++ [s]

/-- `path.normalize` on an absolute path's components. -/
def normalizePath (p : Path) : Path := p.foldl normStep []

/-- `path.dirname` on an absolute path's components. -/
def dirname (p : Path) : Path := p.dropLast

/-- `path.basename` on an absolute path's components. -/
def basename (p : Path) : String := p.getLast?.getD ""

/-- `path.isAbsolute` on the raw string form of a use path. -/
def isAbsolute (s : String) : Bool := strStartsWith s "/"

/-- `split(path.sep)` on the raw string form of a use path. -/
def strSegs (s : String) : List String := strSplitOn s '/' 

/-- `path.normalize(path.resolve(dir, usePath))`: resolution of a `use`
target against the referencing file's directory, as done in
`collectReachableFilesRecursive` (absolute targets pass through). -/
def resolvePath (dir : Path) (usePath : String) : Path :=
  if isAbsolute usePath then normalizePath (strSegs usePath)
  else normalizePath (dir ++ strSegs usePath)

/-- Length of the longest common prefix of two segment lists.  The inner
loop of `findCommonAncestor` (scan `j` up to the current bound, cut at
the first mismatch) computes exactly `min bound (commonLen d0 parts)`,
since the first mismatch below the bound is the common-prefix length. -/
def commonLen : List String → List String → Nat
  | x :: xs, y :: ys => if x = y then commonLen xs ys + 1 else 0
  | _, _ => 0

/-- `findCommonAncestor` (server.ts): deepest common ancestor directory
of a list of file paths.  The source returns `os.tmpdir()` on an empty
list; the claims only involve nonempty lists, where the result is the
longest common prefix of the `dirname (normalize ·)` of all paths. -/
def findCommonAncestor (filePaths : List Path) : Path :=
  match filePaths with
  | [] => []
  | f0 :: rest =>
      let d0 := dirname (normalizePath f0)
      let cl := rest.foldl
        (fun cl f => min cl (commonLen d0 (dirname (normalizePath f)))) d0.length
      d0.take cl

/-- `path.relative(base, target)` for absolute paths: walk up with `..`
for each base component past the common prefix, then down into the
target. -/
def pathRelative (base target : Path) : List String :=
  let k := commonLen base target
  List.replicate (base.length - k) ".." ++ target.drop k

theorem commonLen_le_left (a b : List String) : commonLen a b ≤ a.length := by
  induction a generalizing b with
  | nil => cases b <;> simp [commonLen]
  | cons x xs ih =>
    cases b with
    | nil => simp [commonLen]
    | cons y ys =>
      rw [commonLen]
      by_cases h : x = y
      · rw [if_pos h]
        simpa [List.length_cons] using ih ys
      · rw [if_neg h]; exact Nat.zero_le _

theorem commonLen_self_append (a t : List String) :
    commonLen a (a ++ t) = a.length := by
  induction a with
  | nil => cases t <;> simp [commonLen]
  | cons x xs ih => simp [commonLen, ih]

theorem commonLen_self (a : List String) : commonLen a a = a.length := by
  have := commonLen_self_append a []
  simpa using this

theorem take_eq_take_of_le_commonLen (a b : List String) (k : Nat)
    (h : k ≤ commonLen a b) : a.take k = b.take k := by
  induction a generalizing b k with
  | nil =>
    cases b with
    | nil => rfl
    | cons y ys =>
      have : commonLen [] (y :: ys) = 0 := rfl
      rw [this] at h
      interval_cases k
      rfl
  | cons x xs ih =>
    cases b with
    | nil =>
      have : commonLen (x :: xs) [] = 0 := rfl
      rw [this] at h
      interval_cases k
      rfl
    | cons y ys =>
      rw [commonLen] at h
      by_cases hxy : x = y
      · rw [if_pos hxy] at h
        cases k with
        | zero => rfl
        | succ k' =>
          rw [List.take_succ_cons, List.take_succ_cons, hxy,
            ih ys k' (Nat.le_of_succ_le_succ h)]
      · rw [if_neg hxy] at h
        interval_cases k
        rfl

theorem foldl_min_le_init {α : Type} (g : α → Nat) (l : List α) (i : Nat) :
    l.foldl (fun c x => min c (g x)) i ≤ i := by
  induction l generalizing i with
  | nil => exact Nat.le_refl i
  | cons x xs ih =>
    rw [List.foldl_cons]
    exact Nat.le_trans (ih (min i (g x))) (Nat.min_le_left i (g x))

theorem foldl_min_le_mem {α : Type} (g : α → Nat) (l : List α) (i : Nat)
    (x : α) (hx : x ∈ l) : l.foldl (fun c x => min c (g x)) i ≤ g x := by
  induction l generalizing i with
  | nil => cases hx
  | cons y ys ih =>
    rw [List.foldl_cons]
    rcases List.mem_cons.mp hx with h0 | hmem
    · subst h0
      exact Nat.le_trans (foldl_min_le_init g ys (min i (g x)))
        (Nat.min_le_right i (g x))
    · exact ih (min i (g y)) hmem

theorem not_dotdot_mem_normStep (acc : List String) (s : String)
    (h : ".." ∉ acc) : ".." ∉ normStep acc s := by
  unfold normStep
  by_cases h1 : s = "" ∨ s = "."
  · rw [if_pos h1]; exact h
  · rw [if_neg h1]
    by_cases h2 : s = ".."
    · rw [if_pos h2]
      intro hmem
      exact h (List.dropLast_sublist acc |>.mem hmem)
    · rw [if_neg h2]
      intro hmem
      rcases List.mem_append.mp hmem with hacc | hs
      · exact h hacc
      · rcases List.mem_singleton.mp hs with h3
        exact h2 h3.symm

theorem not_dotdot_mem_normalizePath (p : Path) : ".." ∉ normalizePath p := by
  unfold normalizePath
  have key : ∀ (q : Path) (acc : List String), ".." ∉ acc →
      ".." ∉ q.foldl normStep acc := by
    intro q
    induction q with
    | nil => intro acc h; exact h
    | cons x xs ih =>
      intro acc h
      rw [List.foldl_cons]
      exact ih (normStep acc x) (not_dotdot_mem_normStep acc x h)
  exact key p [] (by simp)

theorem dropLast_append_eq (l : List String) :
    ∃ t, l = l.dropLast ++ t := by
  cases l.eq_nil_or_concat with
  | inl h => exact ⟨[], by simp [h]⟩
  | inr h =>
    obtain ⟨l', a, rfl⟩ := h
    exact ⟨[a], by simp⟩

/-- C3 helper: the common ancestor is a segment prefix of every input
path, hence the relative path has no up-segments. -/
theorem findCommonAncestor_prefix (f0 : Path) (rest : List Path) (f : Path)
    (hf : f ∈ f0 :: rest) (hnorm : normalizePath f = f) :
    ∃ u, f = findCommonAncestor (f0 :: rest) ++ u := by
  set d0 := dirname (normalizePath f0) with hd0
  set cl := rest.foldl
    (fun cl f => min cl (commonLen d0 (dirname (normalizePath f)))) d0.length with hcl
  have hfca : findCommonAncestor (f0 :: rest) = d0.take cl := rfl
  rw [hfca]
  have hcl_le : cl ≤ commonLen d0 (dirname (normalizePath f)) := by
    rcases List.mem_cons.mp hf with h0 | hmem
    · subst h0
      rw [← hd0, commonLen_self]
      exact foldl_min_le_init _ rest d0.length
    · exact foldl_min_le_mem (fun f => commonLen d0 (dirname (normalizePath f)))
        rest d0.length f hmem
  have htake : d0.take cl = (dirname (normalizePath f)).take cl :=
    take_eq_take_of_le_commonLen _ _ cl hcl_le
  rw [hnorm] at htake
  -- d0.take cl is a prefix of dirname f, which is a prefix of f
  obtain ⟨t₂, ht₂⟩ := dropLast_append_eq f
  refine ⟨(dirname f).drop cl ++ t₂, ?_⟩
  rw [htake]
  rw [← List.append_assoc, List.take_append_drop]
  exact ht₂

/-- C3: every input path, made relative to the common ancestor computed
by `findCommonAncestor`, contains no `..` segment, so re-rooting it
under the shadow directory cannot escape the shadow root. -/
theorem shadow_relative_no_escape (fs : List Path) (f : Path)
    (hf : f ∈ fs) (hnorm : ∀ g ∈ fs, normalizePath g = g) :
    ".." ∉ pathRelative (findCommonAncestor fs) f := by
  cases fs with
  | nil => cases hf
  | cons f0 rest =>
    obtain ⟨u, hu⟩ := findCommonAncestor_prefix f0 rest f hf (hnorm f hf)
    set base := findCommonAncestor (f0 :: rest) with hbase
    simp only [pathRelative, hu, commonLen_self_append, Nat.sub_self,
      List.replicate_zero, List.nil_append]
    intro hmem
    have hmem_f : ".." ∈ f := by
      rw [hu]
      exact (List.drop_sublist base.length (base ++ u)).mem hmem
    rw [← hnorm f hf] at hmem_f
    exact not_dotdot_mem_normalizePath f hmem_f

/-! ## LSP diagnostics data model -/

structure Position where
  line : Nat
  character : Nat
deriving DecidableEq, Repr

structure DiagRange where
  start : Position
  stop : Position
deriving DecidableEq, Repr

/-- 1 = Error, 2 = Warning (LSP `DiagnosticSeverity`). -/
structure Diagnostic where
  severity : Nat
  range : DiagRange
  message : String
  source : String
deriving DecidableEq, Repr

/-! ## Staleness guard (server.ts, `validateTextDocument`)

`validateTextDocument` records the document version when a validation
starts and an `AbortController` for the run.  When the asynchronous run
completes (successfully or with an error), the observed state is: has
the run's token been aborted, and what is the current version of the
document (`none` when the document has been closed / is no longer
open).  `publishedDiagnostics` is the publication decision made on
completion: `some d` means `connection.sendDiagnostics` is called with
`d`; `none` means nothing is published.  The error path of the source
publishes an empty diagnostics list after passing the same guards. -/

def publishedDiagnostics (aborted : Bool) (currentVersion : Option Int)
    (requestedVersion : Int) (run : Except String (List Diagnostic)) :
    Option (List Diagnostic) :=
  match run with
  | Except.ok diagnostics =>
      if aborted then none
      else match currentVersion with
        | none => none
        | some v => if v ≠ requestedVersion then none else some diagnostics
  | Except.error _ =>
      if aborted then none
      else match currentVersion with
        | none => none
        | some v => if v ≠ requestedVersion then none else some []

/-! ## Reference resolver (symbolIndex.ts, `resolveDefinitionKinds`)

A query capture is an identifier-covering node produced by the
`references.scm` pattern set; only its capture name and byte span
matter to the resolver. -/

structure RefCapture where
  name : String
  startIndex : Nat
  endIndex : Nat
deriving DecidableEq, Repr

/-- The containment test of the selection loop:
`capture.node.startIndex <= node.startIndex && capture.node.endIndex >= node.endIndex`. -/
def capContainsNode (c : RefCapture) (nodeStart nodeEnd : Nat) : Prop :=
  c.startIndex ≤ nodeStart ∧ nodeEnd ≤ c.endIndex

instance (c : RefCapture) (ns ne : Nat) : Decidable (capContainsNode c ns ne) :=
  inferInstanceAs (Decidable (_ ∧ _))

/-- `capture.node.endIndex - capture.node.startIndex`. -/
def capSpan (c : RefCapture) : Nat := c.endIndex - c.startIndex

/-- `capture.name.split("_").length` (the number of kinds encoded in the
capture name, since the `reference.` prefix merges into the first
piece). -/
def capKindCount (c : RefCapture) : Nat := (strSplitOn c.name '_').length

/-- One iteration of the best-capture selection loop. -/
def pickStep (nodeStart nodeEnd : Nat)
    (best : Option (RefCapture × Nat × Nat)) (cap : RefCapture) :
    Option (RefCapture × Nat × Nat) :=
  if capContainsNode cap nodeStart nodeEnd then
    let size := capSpan cap
    let kindCount := capKindCount cap
    match best with
    | none => some (cap, size, kindCount)
    | some (bc, bestSize, bestKindCount) =>
        if size < bestSize ∨ (size = bestSize ∧ kindCount < bestKindCount) then
          some (cap, size, kindCount)
        else some (bc, bestSize, bestKindCount)
  else best

/-- The selection loop of `resolveDefinitionKinds` (initial state
`bestCapture = null`, `bestSize = bestKindCount = Infinity`: the first
containing capture always replaces the initial state). -/
def pickBestCapture (captures : List RefCapture) (nodeStart nodeEnd : Nat) :
    Option (RefCapture × Nat × Nat) :=
  captures.foldl (pickStep nodeStart nodeEnd) none

/-- `resolveDefinitionKinds`: the kinds an identifier node may
reference, from the most specific containing capture. -/
def resolveDefinitionKinds (captures : List RefCapture)
    (nodeStart nodeEnd : Nat) : Option (List String) :=
  match pickBestCapture captures nodeStart nodeEnd with
  | none => none
  | some (bc, _, _) =>
      if strStartsWith bc.name "reference." then
        some (strSplitOn (strDrop bc.name "reference.".length) '_')
      else none

/-- Invariant of the selection fold: characterisation of `none` results
and best-so-far minimality of `some` results. -/
theorem pickFold_spec (ns ne : Nat) (l : List RefCapture)
    (acc : Option (RefCapture × Nat × Nat))
    (hacc : ∀ bc s k, acc = some (bc, s, k) →
      capContainsNode bc ns ne ∧ s = capSpan bc ∧ k = capKindCount bc) :
    (l.foldl (pickStep ns ne) acc = none ↔
      (acc = none ∧ ∀ c ∈ l, ¬ capContainsNode c ns ne)) ∧
    (∀ bc s k, l.foldl (pickStep ns ne) acc = some (bc, s, k) →
      s = capSpan bc ∧ k = capKindCount bc ∧
      ((bc ∈ l ∧ capContainsNode bc ns ne) ∨ acc = some (bc, s, k)) ∧
      (∀ c ∈ l, capContainsNode c ns ne →
        s ≤ capSpan c ∧ (capSpan c = s → k ≤ capKindCount c)) ∧
      (∀ b₀ s₀ k₀, acc = some (b₀, s₀, k₀) → s ≤ s₀ ∧ (s₀ = s → k ≤ k₀))) := by
  induction l generalizing acc with
  | nil =>
    refine ⟨by simp, ?_⟩
    intro bc s k hr
    rw [List.foldl_nil] at hr
    obtain ⟨hc, hs, hk⟩ := hacc bc s k hr
    exact ⟨hs, hk, Or.inr hr, by simp, by
      intro b₀ s₀ k₀ h₀
      rw [hr] at h₀
      injection h₀ with h1
      injection h1 with h1 h2
      injection h2 with h2 h3
      omega⟩
  | cons c cs ih =>
    rw [List.foldl_cons]
    set acc' := pickStep ns ne acc c with haccdef
    -- facts about the single step
    have hacc' : ∀ bc s k, acc' = some (bc, s, k) →
        capContainsNode bc ns ne ∧ s = capSpan bc ∧ k = capKindCount bc := by
      intro bc s k h
      rw [haccdef, pickStep] at h
      by_cases hcont : capContainsNode c ns ne
      · rw [if_pos hcont] at h
        cases hacc0 : acc with
        | none =>
          rw [hacc0] at h
          injection h with h1
          injection h1 with h1 h2
          injection h2 with h2 h3
          subst h1; subst h2; subst h3
          exact ⟨hcont, rfl, rfl⟩
        | some p =>
          obtain ⟨b₀, s₀, k₀⟩ := p
          rw [hacc0] at h
          simp only at h
          by_cases hbetter : capSpan c < s₀ ∨ (capSpan c = s₀ ∧ capKindCount c < k₀)
          · rw [if_pos hbetter] at h
            injection h with h1
            injection h1 with h1 h2
            injection h2 with h2 h3
            subst h1; subst h2; subst h3
            exact ⟨hcont, rfl, rfl⟩
          · rw [if_neg hbetter] at h
            injection h with h1
            injection h1 with h1 h2
            injection h2 with h2 h3
            subst h1; subst h2; subst h3
            exact hacc b₀ s₀ k₀ hacc0
      · rw [if_neg hcont] at h
        exact hacc bc s k h
    obtain ⟨ihnone, ihsome⟩ := ih acc' hacc'
    constructor
    · rw [ihnone]
      constructor
      · rintro ⟨h1, h2⟩
        rw [haccdef, pickStep] at h1
        by_cases hcont : capContainsNode c ns ne
        · rw [if_pos hcont] at h1
          cases hacc0 : acc with
          | none =>
            rw [hacc0] at h1
            exact absurd h1 (by simp)
          | some p =>
            obtain ⟨b₀, s₀, k₀⟩ := p
            rw [hacc0] at h1
            simp only at h1
            by_cases hb : capSpan c < s₀ ∨ (capSpan c = s₀ ∧ capKindCount c < k₀)
            · rw [if_pos hb] at h1
              exact absurd h1 (by simp)
            · rw [if_neg hb] at h1
              exact absurd h1 (by simp)
        · rw [if_neg hcont] at h1
          refine ⟨h1, ?_⟩
          intro c' hc'
          rcases List.mem_cons.mp hc' with h0 | hmem
          · subst h0; exact hcont
          · exact h2 c' hmem
      · rintro ⟨h1, h2⟩
        have hcont : ¬ capContainsNode c ns ne := h2 c (List.mem_cons_self c cs)
        refine ⟨?_, fun c' hc' => h2 c' (List.mem_cons_of_mem c hc')⟩
        rw [haccdef, pickStep, if_neg hcont]
        exact h1
    · intro bc s k hr
      obtain ⟨hs, hk, hprov, hmin, hcmp⟩ := ihsome bc s k hr
      -- comparison of the result against the step output acc'
      refine ⟨hs, hk, ?_, ?_, ?_⟩
      · -- provenance
        rcases hprov with ⟨hmem, hc⟩ | heq
        · exact Or.inl ⟨List.mem_cons_of_mem c hmem, hc⟩
        · rw [haccdef, pickStep] at heq
          by_cases hcont : capContainsNode c ns ne
          · rw [if_pos hcont] at heq
            cases hacc0 : acc with
            | none =>
              rw [hacc0] at heq
              injection heq with h1
              injection h1 with h1 h2
              subst h1
              exact Or.inl ⟨List.mem_cons_self c cs, hcont⟩
            | some p =>
              obtain ⟨b₀, s₀, k₀⟩ := p
              rw [hacc0] at heq
              simp only at heq
              by_cases hb : capSpan c < s₀ ∨ (capSpan c = s₀ ∧ capKindCount c < k₀)
              · rw [if_pos hb] at heq
                injection heq with h1
                injection h1 with h1 h2
                subst h1
                exact Or.inl ⟨List.mem_cons_self c cs, hcont⟩
              · rw [if_neg hb] at heq
                injection heq with h1
                injection h1 with h1 h2
                subst h1
                exact Or.inr (congrArg some (congrArg (Prod.mk b₀) h2))
          · rw [if_neg hcont] at heq
            exact Or.inr heq
      · -- minimality over c :: cs
        intro c' hc' hcont'
        rcases List.mem_cons.mp hc' with h0 | hmem
        · subst h0
          -- compare with the step output: acc' dominates c'
          have hstep : ∃ b₁ s₁ k₁, acc' = some (b₁, s₁, k₁) ∧
              s₁ ≤ capSpan c' ∧ (capSpan c' = s₁ → k₁ ≤ capKindCount c') := by
            rw [haccdef, pickStep, if_pos hcont']
            cases hacc0 : acc with
            | none => exact ⟨c', capSpan c', capKindCount c', rfl, le_refl _, fun _ => le_refl _⟩
            | some p =>
              obtain ⟨b₀, s₀, k₀⟩ := p
              simp only
              by_cases hb : capSpan c' < s₀ ∨ (capSpan c' = s₀ ∧ capKindCount c' < k₀)
              · rw [if_pos hb]
                exact ⟨c', capSpan c', capKindCount c', rfl, le_refl _, fun _ => le_refl _⟩
              · rw [if_neg hb]
                push_neg at hb
                exact ⟨b₀, s₀, k₀, rfl, by omega, by omega⟩
          obtain ⟨b₁, s₁, k₁, h₁, hle, htie⟩ := hstep
          obtain ⟨hcs, hck⟩ := hcmp b₁ s₁ k₁ h₁
          constructor
          · omega
          · intro hspaneq
            have : s₁ = s := by omega
            have : capSpan c' = s₁ := by omega
            have hk1 := htie this
            have hk2 := hck (by omega)
            omega
        · exact hmin c' hmem hcont'
      · -- comparison with the original accumulator
        intro b₀ s₀ k₀ h₀
        rw [haccdef, pickStep] at hcmp
        by_cases hcont : capContainsNode c ns ne
        · rw [if_pos hcont, h₀] at hcmp
          simp only at hcmp
          by_cases hb : capSpan c < s₀ ∨ (capSpan c = s₀ ∧ capKindCount c < k₀)
          · rw [if_pos hb] at hcmp
            obtain ⟨hcs, hck⟩ := hcmp c (capSpan c) (capKindCount c) rfl
            constructor
            · omega
            · intro hs0
              rcases hb with hlt | ⟨heq, hklt⟩
              · omega
              · have := hck (by omega)
                omega
          · rw [if_neg hb] at hcmp
            exact hcmp b₀ s₀ k₀ rfl
        · rw [if_neg hcont, h₀] at hcmp
          exact hcmp b₀ s₀ k₀ rfl

/-! ## Symbol index (symbolIndex.ts)

`hashContent` is the rolling hash: per character,
`hash = (hash << 5) - hash + char; hash = hash & hash`.  On a 32-bit
value `h`, `h << 5` is `ToInt32(h * 32)`; the subtraction and addition
are exact in float64 for these magnitudes; the final `& `converts back
to a signed 32-bit integer.  The stored value is `hash.toString(16)`,
which is injective on 32-bit integers, so the model keeps the integer
itself. -/

def toInt32 (x : Int) : Int := (x + 2 ^ 31) % 2 ^ 32 - 2 ^ 31

def hashStep (h : Int) (c : Char) : Int :=
  toInt32 (toInt32 (h * 32) - h + c.toNat)

def hashContent (content : String) : Int := content.data.foldl hashStep 0

structure SymbolEntry where
  name : String
  /-- The TS `as SymbolKind` cast is unchecked, so the kind is a string. -/
  kind : String
  file : Path
  line : Nat
  column : Nat
  endLine : Nat
  endColumn : Nat
  container : Option String
deriving DecidableEq, Repr

/-- The parse-relevant view of one ancestor of a captured node: its node
type and the text of its `name` field (`childForFieldName("name")?.text`). -/
structure AncestorInfo where
  type : String
  nameField : Option String
deriving DecidableEq, Repr

/-- A node captured by the `definitions.scm` query: its text, position,
and chain of ancestors (immediate parent first). -/
structure CaptureNode where
  text : String
  startRow : Nat
  startCol : Nat
  endRow : Nat
  endCol : Nat
  ancestors : List AncestorInfo
deriving DecidableEq, Repr

structure DefCapture where
  name : String
  node : CaptureNode
deriving DecidableEq, Repr

def classLikeTypes : List String :=
  ["class_definition", "trait_definition", "interface_definition",
   "association_class_definition"]

/-- One step of the parent walk of `resolveStateMachineContainer`: the
source tests `state_machine` and `statemachine_definition` in two
separate `if`s performing the same assignment
`rootSmName = current.childForFieldName("name")?.text ?? rootSmName`;
a node has a single type, so the combined disjunction is equivalent. -/
def smStep (rootSmName : Option String) (a : AncestorInfo) : Option String :=
  if a.type = "state_machine" ∨ a.type = "statemachine_definition" then
    match a.nameField with
    | some n => some n
    | none => rootSmName
  else rootSmName

/-- `resolveStateMachineContainer`: walk up to the ROOT (outermost)
state machine name, overwriting on each state-machine ancestor. -/
def resolveStateMachineContainer (node : CaptureNode) : Option String :=
  node.ancestors.foldl smStep none

/-- `resolveClassContainer`: name of the nearest enclosing class-like
ancestor (the walk stops at the first class-like node and returns its
`name` field, which may be absent). -/
def resolveClassContainer (node : CaptureNode) : Option String :=
  (node.ancestors.find? (fun a => a.type ∈ classLikeTypes)).bind (·.nameField)

/-- The kind-directed container choice of `extractSymbols`. -/
def containerFor (kind : String) (node : CaptureNode) : Option String :=
  if kind = "state" ∨ kind = "statemachine" then
    resolveStateMachineContainer node
  else if kind = "attribute" ∨ kind = "method" ∨ kind = "template" then
    resolveClassContainer node
  else
    -- Top-level symbols (class, interface, trait, enum, etc.) are
    -- self-containers
    some node.text

/-- The per-capture body of the loop in `extractSymbols`:
skip captures without the `definition.` prefix, derive the kind from the
capture name, and resolve the container according to the kind. -/
def symbolOfCapture (filePath : Path) (cap : DefCapture) : Option SymbolEntry :=
  if strStartsWith cap.name "definition." then
    let kind := strDrop cap.name "definition.".length
    let node := cap.node
    some { name := node.text, kind := kind, file := filePath,
           line := node.startRow, column := node.startCol,
           endLine := node.endRow, endColumn := node.endCol,
           container := containerFor kind node }
  else none

/-- `extractSymbols` over the `definitions.scm` captures of a parsed file. -/
def extractSymbols (filePath : Path) (captures : List DefCapture) :
    List SymbolEntry :=
  captures.filterMap (symbolOfCapture filePath)

/-- A `FileIndex` record (the cached parse tree is an external object
carrying no observable state of its own beyond the symbols and hash). -/
structure FileIndex where
  symbols : List SymbolEntry
  contentHash : Int
deriving DecidableEq, Repr

/-- The mutable state of the `SymbolIndex` class. -/
structure IndexState where
  parserReady : Bool
  files : List (Path × FileIndex)
  symbolsByContainer : List (String × List SymbolEntry)
  isAByFile : List (Path × List (String × List String))
  isAGraph : List (String × List String)
deriving DecidableEq, Repr

/-- The per-symbol body of the retraction loop in `removeFileSymbols`:
filter the symbol's container bucket, deleting it when it empties. -/
def removeSymStep (filePath : Path) (m : List (String × List SymbolEntry))
    (symbol : SymbolEntry) : List (String × List SymbolEntry) :=
  match symbol.container with
  | none => m
  | some cname =>
      match mapGet m cname with
      | none => m
      | some containerSyms =>
          let filtered := containerSyms.filter (fun s => s.file ≠ filePath)
          if filtered.length = 0 then mapDelete m cname
          else mapSet m cname filtered

/-- `removeFileSymbols`: retract a file's symbols from the container
registry, deleting buckets that become empty. -/
def removeFileSymbols (st : IndexState) (filePath : Path) : IndexState :=
  match mapGet st.files filePath with
  | none => st
  | some fileIndex =>
      let m' := fileIndex.symbols.foldl (removeSymStep filePath)
        st.symbolsByContainer
      { st with symbolsByContainer := m' }

/-- `rebuildIsAGraph`: merge all per-file isA maps into the global graph. -/
def rebuildIsAGraph (isAByFile : List (Path × List (String × List String))) :
    List (String × List String) :=
  isAByFile.foldl
    (fun g fileEntry =>
      fileEntry.2.foldl
        (fun g entry => mapSet g entry.1 (mapGetD g entry.1 [] ++ entry.2)) g)
    []

/-- The per-symbol body of the insertion loop at the end of
`indexFile`: `(symbolsByContainer.get(c) ?? []).push(symbol)` then
`set`. -/
def insertSymStep (m : List (String × List SymbolEntry))
    (symbol : SymbolEntry) : List (String × List SymbolEntry) :=
  match symbol.container with
  | none => m
  | some cname => mapSet m cname (mapGetD m cname [] ++ [symbol])

/-- The symbol-insertion loop at the end of `indexFile`. -/
def insertSymbols (m : List (String × List SymbolEntry))
    (symbols : List SymbolEntry) : List (String × List SymbolEntry) :=
  symbols.foldl insertSymStep m

/-- The parse-extract-store sequence of `indexFile` after the cache
check (and after the retraction, when the file was already indexed).
`extractCaps` and `extractIsA` are the outputs of the external parser
and its queries on the given content (`definitions.scm` captures and
`extractIsARelationships`). -/
def indexFileCore (extractCaps : String → List DefCapture)
    (extractIsA : String → List (String × List String))
    (st : IndexState) (filePath : Path) (content : String) (hash : Int) :
    IndexState :=
  let symbols := extractSymbols filePath (extractCaps content)
  let isAMap := extractIsA content
  let isAByFile := mapSet st.isAByFile filePath isAMap
  { st with
    isAByFile := isAByFile
    isAGraph := rebuildIsAGraph isAByFile
    files := mapSet st.files filePath { symbols := symbols, contentHash := hash }
    symbolsByContainer := insertSymbols st.symbolsByContainer symbols }

/-- `indexFile(filePath, content)` with content supplied:
returns whether the file was (re)indexed, plus the updated state. -/
def indexFile (extractCaps : String → List DefCapture)
    (extractIsA : String → List (String × List String))
    (st : IndexState) (filePath : Path) (content : String) :
    Bool × IndexState :=
  if ¬ st.parserReady then (false, st)
  else
    let hash := hashContent content
    match mapGet st.files filePath with
    | some existing =>
        if existing.contentHash = hash then (false, st)
        else
          (true, indexFileCore extractCaps extractIsA
            (removeFileSymbols st filePath) filePath content hash)
    | none => (true, indexFileCore extractCaps extractIsA st filePath content hash)

/-! ### Properties of the symbol index -/

theorem removeFileSymbols_files (st : IndexState) (p : Path) :
    (removeFileSymbols st p).files = st.files := by
  unfold removeFileSymbols
  cases mapGet st.files p <;> rfl

theorem removeFileSymbols_parserReady (st : IndexState) (p : Path) :
    (removeFileSymbols st p).parserReady = st.parserReady := by
  unfold removeFileSymbols
  cases mapGet st.files p <;> rfl

theorem removeFileSymbols_isAByFile (st : IndexState) (p : Path) :
    (removeFileSymbols st p).isAByFile = st.isAByFile := by
  unfold removeFileSymbols
  cases mapGet st.files p <;> rfl

/-- The view of a container bucket restricted to entries of other files. -/
def containerView (m : List (String × List SymbolEntry)) (filePath : Path)
    (cname : String) : List SymbolEntry :=
  (mapGetD m cname []).filter (fun s => s.file ≠ filePath)

theorem filter_idem {α : Type} (p : α → Bool) (l : List α) :
    (l.filter p).filter p = l.filter p := by
  induction l with
  | nil => rfl
  | cons hd tl ih =>
    by_cases h : p hd <;> simp [List.filter_cons, h, ih]

theorem containerView_removeSymStep (f : Path)
    (m : List (String × List SymbolEntry)) (sym : SymbolEntry) (c : String) :
    containerView (removeSymStep f m sym) f c = containerView m f c := by
  rcases hsc : sym.container with _ | cname
  · simp only [removeSymStep, hsc]
  · simp only [removeSymStep, hsc]
    rcases hg : mapGet m cname with _ | containerSyms
    · simp only [hg]
    · simp only [hg]
      by_cases hlen : (containerSyms.filter (fun s => s.file ≠ f)).length = 0
      · rw [if_pos hlen]
        unfold containerView mapGetD
        by_cases hc : c = cname
        · subst hc
          rw [mapGet_mapDelete_self, hg]
          simp only [Option.getD_none, Option.getD_some, List.filter_nil]
          exact (List.length_eq_zero.mp hlen).symm
        · rw [mapGet_mapDelete_ne m cname c hc]
      · rw [if_neg hlen]
        unfold containerView mapGetD
        by_cases hc : c = cname
        · subst hc
          rw [mapGet_mapSet_self, hg]
          simp only [Option.getD_some]
          exact filter_idem _ containerSyms
        · rw [mapGet_mapSet_ne m cname c _ hc]

theorem containerView_removeFold (f : Path) (syms : List SymbolEntry)
    (m : List (String × List SymbolEntry)) (c : String) :
    containerView (syms.foldl (removeSymStep f) m) f c = containerView m f c := by
  induction syms generalizing m with
  | nil => rfl
  | cons hd tl ih =>
    rw [List.foldl_cons, ih, containerView_removeSymStep]

theorem containerView_insertSymStep (f : Path)
    (m : List (String × List SymbolEntry)) (sym : SymbolEntry)
    (hf : sym.file = f) (c : String) :
    containerView (insertSymStep m sym) f c = containerView m f c := by
  rcases hsc : sym.container with _ | cname
  · simp only [insertSymStep, hsc]
  · simp only [insertSymStep, hsc]
    unfold containerView mapGetD
    by_cases hc : c = cname
    · subst hc
      rw [mapGet_mapSet_self]
      simp only [Option.getD_some]
      rw [List.filter_append]
      have : [sym].filter (fun s => s.file ≠ f) = [] := by
        rw [List.filter_cons]
        simp [hf]
      rw [this, List.append_nil]
    · rw [mapGet_mapSet_ne m cname c _ hc]

theorem containerView_insertSymbols (f : Path) (syms : List SymbolEntry)
    (m : List (String × List SymbolEntry)) (hf : ∀ s ∈ syms, s.file = f)
    (c : String) :
    containerView (insertSymbols m syms) f c = containerView m f c := by
  unfold insertSymbols
  induction syms generalizing m with
  | nil => rfl
  | cons hd tl ih =>
    rw [List.foldl_cons]
    rw [ih (insertSymStep m hd) (fun s hs => hf s (List.mem_cons_of_mem hd hs)),
      containerView_insertSymStep f m hd (hf hd (List.mem_cons_self hd tl))]

theorem symbolOfCapture_file (p : Path) (cap : DefCapture) (s : SymbolEntry)
    (h : symbolOfCapture p cap = some s) : s.file = p := by
  unfold symbolOfCapture at h
  cases hpre : strStartsWith cap.name "definition." with
  | false =>
    rw [hpre] at h
    rw [if_neg (by simp)] at h
    cases h
  | true =>
    rw [hpre] at h
    rw [if_pos rfl] at h
    have h1 := Option.some_inj.mp h
    rw [← h1]

theorem extractSymbols_file_eq (p : Path) (caps : List DefCapture)
    (s : SymbolEntry) (hs : s ∈ extractSymbols p caps) : s.file = p := by
  unfold extractSymbols at hs
  rcases List.mem_filterMap.mp hs with ⟨cap, _, heq⟩
  exact symbolOfCapture_file p cap s heq

theorem symbolOfCapture_eq (p : Path) (cap : DefCapture) (s : SymbolEntry)
    (h : symbolOfCapture p cap = some s) :
    s = { name := cap.node.text, kind := strDrop cap.name "definition.".length,
          file := p, line := cap.node.startRow, column := cap.node.startCol,
          endLine := cap.node.endRow, endColumn := cap.node.endCol,
          container := containerFor (strDrop cap.name "definition.".length)
            cap.node } := by
  unfold symbolOfCapture at h
  cases hpre : strStartsWith cap.name "definition." with
  | false =>
    rw [hpre] at h
    rw [if_neg (by simp)] at h
    cases h
  | true =>
    rw [hpre] at h
    rw [if_pos rfl] at h
    exact (Option.some_inj.mp h).symm

theorem containerFor_sm (kind : String) (node : CaptureNode)
    (h : kind = "state" ∨ kind = "statemachine") :
    containerFor kind node = resolveStateMachineContainer node := by
  unfold containerFor
  rw [if_pos h]

theorem containerFor_toplevel (kind : String) (node : CaptureNode)
    (h1 : ¬ (kind = "state" ∨ kind = "statemachine"))
    (h2 : ¬ (kind = "attribute" ∨ kind = "method" ∨ kind = "template")) :
    containerFor kind node = some node.text := by
  unfold containerFor
  rw [if_neg h1, if_neg h2]

theorem foldl_smStep_no_sm (l : List AncestorInfo) (acc : Option String)
    (h : ∀ b ∈ l, ¬ (b.type = "state_machine" ∨ b.type = "statemachine_definition")) :
    l.foldl smStep acc = acc := by
  induction l generalizing acc with
  | nil => rfl
  | cons hd tl ih =>
    rw [List.foldl_cons]
    have hhd : smStep acc hd = acc := by
      unfold smStep
      rw [if_neg (h hd (List.mem_cons_self hd tl))]
    rw [hhd]
    exact ih acc (fun b hb => h b (List.mem_cons_of_mem hd hb))

/-- The parent walk ends at the name of the outermost state-machine
ancestor: walking from the inside out, the outermost named
state-machine node overwrites every inner one. -/
theorem resolveStateMachineContainer_outermost (node : CaptureNode)
    (l₁ : List AncestorInfo) (a : AncestorInfo) (l₂ : List AncestorInfo)
    (n : String)
    (hanc : node.ancestors = l₁ ++ a :: l₂)
    (ha : a.type = "state_machine" ∨ a.type = "statemachine_definition")
    (hn : a.nameField = some n)
    (hl₂ : ∀ b ∈ l₂, ¬ (b.type = "state_machine" ∨ b.type = "statemachine_definition")) :
    resolveStateMachineContainer node = some n := by
  unfold resolveStateMachineContainer
  rw [hanc, List.foldl_append, List.foldl_cons]
  have hstep : smStep (l₁.foldl smStep none) a = some n := by
    unfold smStep
    rw [if_pos ha, hn]
  rw [hstep]
  exact foldl_smStep_no_sm l₂ (some n) hl₂

/-! ### Claim theorems for the symbol index -/

/-- C8: a symbol extracted with kind `state` or `statemachine` has as
container the name of the outermost enclosing state-machine node
(regardless of nesting depth), and a symbol of any top-level kind
(class, interface, trait, enum, ... — anything other than
state/statemachine/attribute/method/template) is its own container. -/
theorem extractSymbols_container_resolution
    (p : Path) (caps : List DefCapture) (cap : DefCapture) (s : SymbolEntry)
    (hmem : cap ∈ caps) (hsym : symbolOfCapture p cap = some s) :
    s ∈ extractSymbols p caps ∧
    ((s.kind = "state" ∨ s.kind = "statemachine") →
      ∀ l₁ a l₂ n, cap.node.ancestors = l₁ ++ a :: l₂ →
        (a.type = "state_machine" ∨ a.type = "statemachine_definition") →
        (∀ b ∈ l₂, ¬ (b.type = "state_machine" ∨ b.type = "statemachine_definition")) →
        a.nameField = some n →
        s.container = some n) ∧
    ((¬ (s.kind = "state" ∨ s.kind = "statemachine")) →
      (¬ (s.kind = "attribute" ∨ s.kind = "method" ∨ s.kind = "template")) →
      s.container = some s.name) := by
  have hs : s ∈ extractSymbols p caps :=
    List.mem_filterMap.mpr ⟨cap, hmem, hsym⟩
  have heq := symbolOfCapture_eq p cap s hsym
  refine ⟨hs, ?_, ?_⟩
  · intro hkind l₁ a l₂ n hanc ha hl₂ hn
    have hkind' : strDrop cap.name "definition.".length = "state" ∨
        strDrop cap.name "definition.".length = "statemachine" := by
      rw [heq] at hkind
      exact hkind
    have hcont : s.container =
        containerFor (strDrop cap.name "definition.".length) cap.node := by
      rw [heq]
    rw [hcont, containerFor_sm _ _ hkind']
    exact resolveStateMachineContainer_outermost cap.node l₁ a l₂ n hanc ha hn hl₂
  · intro h1 h2
    have h1' : ¬ (strDrop cap.name "definition.".length = "state" ∨
        strDrop cap.name "definition.".length = "statemachine") := by
      rw [heq] at h1
      exact h1
    have h2' : ¬ (strDrop cap.name "definition.".length = "attribute" ∨
        strDrop cap.name "definition.".length = "method" ∨
        strDrop cap.name "definition.".length = "template") := by
      rw [heq] at h2
      exact h2
    have hcont : s.container =
        containerFor (strDrop cap.name "definition.".length) cap.node := by
      rw [heq]
    rw [hcont, containerFor_toplevel _ _ h1' h2', heq]

/-- C1: with the parser initialized and a path not already cached with
this content's hash, indexing the same content twice returns `true`
then `false`, and the second call leaves the whole index state (file
index, container registry, isA maps and graph) unchanged. -/
theorem indexFile_idempotent_on_same_content
    (ec : String → List DefCapture) (ei : String → List (String × List String))
    (st : IndexState) (p : Path) (content : String)
    (hready : st.parserReady = true)
    (hfresh : ∀ fi, mapGet st.files p = some fi →
      fi.contentHash ≠ hashContent content) :
    (indexFile ec ei st p content).1 = true ∧
    (indexFile ec ei (indexFile ec ei st p content).2 p content).1 = false ∧
    (indexFile ec ei (indexFile ec ei st p content).2 p content).2 =
      (indexFile ec ei st p content).2 := by
  have hfirst : ∃ stPre : IndexState, stPre.parserReady = true ∧
      indexFile ec ei st p content =
        (true, indexFileCore ec ei stPre p content (hashContent content)) := by
    rcases hget : mapGet st.files p with _ | fi
    · refine ⟨st, hready, ?_⟩
      simp [indexFile, hget, hready]
    · refine ⟨removeFileSymbols st p, ?_, ?_⟩
      · rw [removeFileSymbols_parserReady]; exact hready
      · have hne := hfresh fi hget
        simp [indexFile, hget, hready, hne]
  obtain ⟨stPre, hpre_ready, hfirst⟩ := hfirst
  set st1 := indexFileCore ec ei stPre p content (hashContent content) with hst1def
  have h1ready : st1.parserReady = true := hpre_ready
  have h1get : mapGet st1.files p =
      some { symbols := extractSymbols p (ec content),
             contentHash := hashContent content } := by
    have hfiles : st1.files = mapSet stPre.files p
        { symbols := extractSymbols p (ec content),
          contentHash := hashContent content } := rfl
    rw [hfiles]
    exact mapGet_mapSet_self _ _ _
  have hsec : indexFile ec ei st1 p content = (false, st1) := by
    simp [indexFile, h1get, h1ready]
  refine ⟨?_, ?_, ?_⟩
  · rw [hfirst]
  · rw [hfirst]
    show (indexFile ec ei st1 p content).1 = false
    rw [hsec]
  · rw [hfirst]
    show (indexFile ec ei st1 p content).2 = st1
    rw [hsec]

/-- C10: re-indexing a file is frame-preserving for other files: every
container bucket keeps exactly its entries whose source file is
different, and the per-file isA contributions of every other file are
untouched. -/
theorem indexFile_frame
    (ec : String → List DefCapture) (ei : String → List (String × List String))
    (st : IndexState) (p : Path) (content : String) :
    (∀ cname,
      containerView ((indexFile ec ei st p content).2).symbolsByContainer p cname =
        containerView st.symbolsByContainer p cname) ∧
    (∀ g, g ≠ p →
      mapGet ((indexFile ec ei st p content).2).isAByFile g =
        mapGet st.isAByFile g) := by
  cases hready : st.parserReady with
  | false =>
    have heq : indexFile ec ei st p content = (false, st) := by
      simp [indexFile, hready]
    rw [heq]
    exact ⟨fun _ => rfl, fun _ _ => rfl⟩
  | true =>
    rcases hget : mapGet st.files p with _ | fi
    · have heq : indexFile ec ei st p content =
          (true, indexFileCore ec ei st p content (hashContent content)) := by
        simp [indexFile, hget, hready]
      rw [heq]
      constructor
      · intro cname
        have hsbc : (indexFileCore ec ei st p content
              (hashContent content)).symbolsByContainer =
            insertSymbols st.symbolsByContainer
              (extractSymbols p (ec content)) := rfl
        rw [hsbc]
        exact containerView_insertSymbols p _ _
          (fun s hs => extractSymbols_file_eq p _ s hs) cname
      · intro g hg
        have hisa : (indexFileCore ec ei st p content
              (hashContent content)).isAByFile =
            mapSet st.isAByFile p (ei content) := rfl
        rw [hisa]
        exact mapGet_mapSet_ne _ _ _ _ hg
    · by_cases hhash : fi.contentHash = hashContent content
      · have heq : indexFile ec ei st p content = (false, st) := by
          simp [indexFile, hget, hready, hhash]
        rw [heq]
        exact ⟨fun _ => rfl, fun _ _ => rfl⟩
      · have heq : indexFile ec ei st p content =
            (true, indexFileCore ec ei (removeFileSymbols st p) p content
              (hashContent content)) := by
          simp [indexFile, hget, hready, hhash]
        rw [heq]
        constructor
        · intro cname
          have hsbc : (indexFileCore ec ei (removeFileSymbols st p) p content
                (hashContent content)).symbolsByContainer =
              insertSymbols (removeFileSymbols st p).symbolsByContainer
                (extractSymbols p (ec content)) := rfl
          rw [hsbc]
          rw [containerView_insertSymbols p _ _
            (fun s hs => extractSymbols_file_eq p _ s hs) cname]
          -- the retraction loop also preserves the other-files view
          unfold removeFileSymbols
          rcases hget2 : mapGet st.files p with _ | fi2
          · simp only [hget2]
          · simp only [hget2]
            exact containerView_removeFold p fi2.symbols st.symbolsByContainer cname
        · intro g hg
          have hisa : (indexFileCore ec ei (removeFileSymbols st p) p content
                (hashContent content)).isAByFile =
              mapSet (removeFileSymbols st p).isAByFile p (ei content) := rfl
          rw [hisa, removeFileSymbols_isAByFile]
          exact mapGet_mapSet_ne _ _ _ _ hg

/-- C5: a validation result is never published when stale — if the run
was aborted, or the document was closed, or its version advanced past
the version requested when validation started, nothing is sent. -/
theorem stale_validation_never_published (aborted : Bool)
    (currentVersion : Option Int) (requestedVersion : Int)
    (run : Except String (List Diagnostic))
    (hstale : aborted = true ∨ currentVersion = none ∨
      (∃ v, currentVersion = some v ∧ requestedVersion < v)) :
    publishedDiagnostics aborted currentVersion requestedVersion run = none := by
  rcases hstale with h | h | ⟨v, hv, hlt⟩
  · subst h
    cases run <;> rfl
  · subst h
    unfold publishedDiagnostics
    cases run <;> cases aborted <;> rfl
  · subst hv
    unfold publishedDiagnostics
    have hne : v ≠ requestedVersion := by omega
    cases run <;> cases aborted <;> simp [hne]

/-- C6: among the reference-pattern captures covering an identifier,
the resolver selects one with the smallest matched span, breaking ties
by the fewest encoded kinds; it returns `none` when no pattern covers
the identifier. -/
theorem resolveDefinitionKinds_most_specific
    (captures : List RefCapture) (ns ne : Nat)
    (hwf : ∀ c ∈ captures, strStartsWith c.name "reference.") :
    ((∀ c ∈ captures, ¬ capContainsNode c ns ne) →
      resolveDefinitionKinds captures ns ne = none) ∧
    (∀ c₀ ∈ captures, capContainsNode c₀ ns ne →
      ∃ bc ∈ captures, capContainsNode bc ns ne ∧
        (∀ c ∈ captures, capContainsNode c ns ne →
          capSpan bc ≤ capSpan c ∧
          (capSpan c = capSpan bc → capKindCount bc ≤ capKindCount c)) ∧
        resolveDefinitionKinds captures ns ne =
          some (strSplitOn (strDrop bc.name "reference.".length) '_')) := by
  obtain ⟨hnone, hsome⟩ := pickFold_spec ns ne captures none (by simp)
  constructor
  · intro hno
    have h0 : pickBestCapture captures ns ne = none := hnone.mpr ⟨rfl, hno⟩
    simp only [resolveDefinitionKinds, h0]
  · intro c₀ hc₀ hcont₀
    rcases hr : pickBestCapture captures ns ne with _ | best
    · exfalso
      obtain ⟨_, hall⟩ := hnone.mp hr
      exact hall c₀ hc₀ hcont₀
    · obtain ⟨bc, s, k⟩ := best
      obtain ⟨hs, hk, hprov, hmin, _⟩ := hsome bc s k hr
      rcases hprov with ⟨hmem, hcont⟩ | habs
      · refine ⟨bc, hmem, hcont, ?_, ?_⟩
        · intro c hc hcc
          obtain ⟨h1, h2⟩ := hmin c hc hcc
          exact ⟨hs ▸ h1, fun he => hk ▸ h2 (by rw [hs]; exact he)⟩
        · simp only [resolveDefinitionKinds, hr]
          rw [if_pos (hwf bc hmem)]
      · cases habs

/-! ## Import reachability (server.ts, `collectReachableFiles`)

A file's parse-relevant observation for this subsystem is its list of
`use` statements (the output of `extractUseStatements` /
`extractUseStatementsWithPositions` on the parsed tree).  The
filesystem is an association of absolute normalized paths to such
contents; `existsSync`/`readFileSync` address files through the OS,
which resolves a path up to normalization, so lookup is by the
normalized path.

The source recursion terminates because the visited set grows; the
model makes this explicit with a fuel argument that is consumed exactly
when recursing into a newly-discovered file that exists on disk, and
returns `none` only on fuel exhaustion.  `crfrGo_isSome` shows fuel
equal to the number of distinct unvisited filesystem entries suffices,
so the wrapper `collectReachableFiles` (which supplies that much fuel)
always completes. -/

structure UseStmt where
  path : String
  line : Nat
deriving DecidableEq, Repr

abbrev Content := List UseStmt

abbrev FileSys := List (Path × Content)

def fsLookup (fsys : FileSys) (p : Path) : Option Content := mapGet fsys p

/-- `extractUseStatements`: the use paths of a file's content. -/
def extractUseStatements (content : Content) : List String :=
  content.map (·.path)

/-- The loop body of `collectReachableFilesRecursive` for one `use`
statement: skip non-`.ump` targets (mixset names), resolve against the
referencing file's directory, skip already-visited paths, mark the
resolved path visited, and recurse into the file's own use statements
when it exists on disk.  `recur` is the recursive call (the model's
fuel mechanism supplies it; it returns `none` only on fuel
exhaustion). -/
def crfrStep (fsys : FileSys)
    (recur : List String → Path → List Path → Option (List Path))
    (dir : Path) (visited : List Path) (usePath : String) :
    Option (List Path) :=
  if ¬ strEndsWith usePath ".ump" then some visited
  else if resolvePath dir usePath ∈ visited then some visited
  else
    match fsLookup fsys (resolvePath dir usePath) with
    | none => some (visited ++ [resolvePath dir usePath])
    | some content =>
        recur (extractUseStatements content)
          (dirname (resolvePath dir usePath))
          (visited ++ [resolvePath dir usePath])

def crfrGo (fsys : FileSys) : Nat → List String → Path → List Path →
    Option (List Path)
  | 0, uses, dir, visited =>
      uses.foldlM (crfrStep fsys (fun _ _ _ => none) dir) visited
  | fuel + 1, uses, dir, visited =>
      uses.foldlM (crfrStep fsys (crfrGo fsys fuel) dir) visited
termination_by structural fuel _ _ _ => fuel

theorem crfrGo_zero_eq (fsys : FileSys) (uses : List String) (dir : Path)
    (visited : List Path) :
    crfrGo fsys 0 uses dir visited =
      uses.foldlM (crfrStep fsys (fun _ _ _ => none) dir) visited := rfl

theorem crfrGo_succ_eq (fsys : FileSys) (fuel : Nat) (uses : List String)
    (dir : Path) (visited : List Path) :
    crfrGo fsys (fuel + 1) uses dir visited =
      uses.foldlM (crfrStep fsys (crfrGo fsys fuel) dir) visited := rfl

/-- Number of distinct filesystem paths not yet visited. -/
def remainingCount (fsys : FileSys) (visited : List Path) : Nat :=
  ((fsys.map Prod.fst).dedup.filter (fun q => ¬ q ∈ visited)).length

/-- `collectReachableFiles(filePath, content, documentDir)`: run the
recursion from an empty visited set, with enough fuel to visit every
filesystem entry. -/
def collectReachableFiles (fsys : FileSys) (filePath : Path)
    (content : Content) (documentDir : Path) : Option (List Path) :=
  crfrGo fsys (remainingCount fsys [] + 1) (extractUseStatements content)
    documentDir []

theorem foldlM_option_mono {α β : Type} (step : List β → α → Option (List β))
    (hstep : ∀ v u v', step v u = some v' → ∀ x ∈ v, x ∈ v') :
    ∀ (l : List α) (v out : List β), l.foldlM step v = some out →
      ∀ x ∈ v, x ∈ out := by
  intro l
  induction l with
  | nil =>
    intro v out h x hx
    rw [List.foldlM_nil] at h
    injection h with h1
    rw [← h1]
    exact hx
  | cons a l ih =>
    intro v out h x hx
    rw [List.foldlM_cons] at h
    simp only [Option.bind_eq_bind, Option.bind_eq_some] at h
    obtain ⟨v₁, h1, h2⟩ := h
    exact ih v₁ out h2 x (hstep v a v₁ h1 x hx)

theorem crfrStep_mono (fsys : FileSys)
    (recur : List String → Path → List Path → Option (List Path)) (dir : Path)
    (hrec : ∀ uses d v out, recur uses d v = some out → ∀ x ∈ v, x ∈ out) :
    ∀ v u v', crfrStep fsys recur dir v u = some v' → ∀ x ∈ v, x ∈ v' := by
  intro v u v' h x hx
  unfold crfrStep at h
  by_cases hc1 : ¬ strEndsWith u ".ump"
  · rw [if_pos hc1] at h
    injection h with h1; rw [← h1]; exact hx
  · rw [if_neg hc1] at h
    by_cases hc2 : resolvePath dir u ∈ v
    · rw [if_pos hc2] at h
      injection h with h1; rw [← h1]; exact hx
    · rw [if_neg hc2] at h
      rcases hfs : fsLookup fsys (resolvePath dir u) with _ | content
      · simp only [hfs] at h
        injection h with h1
        rw [← h1]
        exact List.mem_append.mpr (Or.inl hx)
      · simp only [hfs] at h
        exact hrec _ _ _ _ h x (List.mem_append.mpr (Or.inl hx))

theorem crfrGo_mono (fsys : FileSys) :
    ∀ (fuel : Nat) (uses : List String) (dir : Path) (visited out : List Path),
    crfrGo fsys fuel uses dir visited = some out → ∀ x ∈ visited, x ∈ out := by
  intro fuel
  induction fuel with
  | zero =>
    intro uses dir visited out h
    rw [crfrGo_zero_eq] at h
    exact foldlM_option_mono _
      (crfrStep_mono fsys _ dir (fun uses d v out h => by cases h)) uses
      visited out h
  | succ fuel' ih =>
    intro uses dir visited out h
    rw [crfrGo_succ_eq] at h
    exact foldlM_option_mono _
      (crfrStep_mono fsys _ dir (fun uses d v out h => ih uses d v out h)) uses
      visited out h

theorem filter_length_le_of_imp {α : Type} (l : List α) (p q : α → Bool)
    (hpq : ∀ a, p a → q a) : (l.filter p).length ≤ (l.filter q).length := by
  induction l with
  | nil => exact Nat.le_refl _
  | cons hd tl ih =>
    rw [List.filter_cons, List.filter_cons]
    by_cases hp : p hd
    · rw [if_pos hp, if_pos (hpq hd hp)]
      simpa using ih
    · rw [if_neg hp]
      by_cases hq : q hd
      · rw [if_pos hq]
        exact Nat.le_trans ih (by simp)
      · rw [if_neg hq]
        exact ih

theorem filter_length_lt_of_imp {α : Type} (l : List α) (p q : α → Bool)
    (hpq : ∀ a, p a → q a) (x : α) (hx : x ∈ l) (hpx : ¬ p x) (hqx : q x) :
    (l.filter p).length < (l.filter q).length := by
  induction l with
  | nil => cases hx
  | cons hd tl ih =>
    rw [List.filter_cons, List.filter_cons]
    rcases List.mem_cons.mp hx with h0 | hmem
    · subst h0
      rw [if_neg hpx, if_pos hqx]
      exact Nat.lt_succ_of_le (filter_length_le_of_imp tl p q hpq)
    · by_cases hp : p hd
      · rw [if_pos hp, if_pos (hpq hd hp)]
        simpa using ih hmem
      · rw [if_neg hp]
        by_cases hq : q hd
        · rw [if_pos hq]
          exact Nat.lt_trans (ih hmem) (by simp)
        · rw [if_neg hq]
          exact ih hmem

theorem remainingCount_le_of_subset (fsys : FileSys) (v₁ v₂ : List Path)
    (hsub : ∀ x ∈ v₁, x ∈ v₂) :
    remainingCount fsys v₂ ≤ remainingCount fsys v₁ := by
  unfold remainingCount
  apply filter_length_le_of_imp
  intro a ha
  simp only [decide_eq_true_eq] at ha ⊢
  intro hmem
  exact ha (hsub a hmem)

theorem fsLookup_mem_dom (fsys : FileSys) (p : Path) (c : Content)
    (h : fsLookup fsys p = some c) : p ∈ fsys.map Prod.fst := by
  unfold fsLookup mapGet at h
  rcases hf : fsys.find? (fun kv => kv.1 = p) with _ | kv
  · rw [hf] at h; cases h
  · have hmem := List.mem_of_find?_eq_some hf
    have hp := List.find?_some hf
    simp only [decide_eq_true_eq] at hp
    rw [← hp]
    exact List.mem_map_of_mem Prod.fst hmem

theorem remainingCount_lt (fsys : FileSys) (visited : List Path) (p : Path)
    (hdom : p ∈ fsys.map Prod.fst) (hnv : p ∉ visited) :
    remainingCount fsys (visited ++ [p]) < remainingCount fsys visited := by
  unfold remainingCount
  apply filter_length_lt_of_imp _ _ _ ?_ p
  · exact List.mem_dedup.mpr hdom
  · simp
  · simpa using hnv
  · intro a ha
    simp only [decide_eq_true_eq] at ha ⊢
    intro hmem
    exact ha (List.mem_append.mpr (Or.inl hmem))

/-- A fold over an option-valued step completes when every step
preserves a bound. -/
theorem foldlM_isSome_of_step {α β : Type} (step : List β → α → Option (List β))
    (R : List β → Nat) (bound : Nat)
    (hstep : ∀ v u, R v ≤ bound → ∃ v', step v u = some v' ∧ R v' ≤ bound) :
    ∀ (l : List α) (v : List β), R v ≤ bound → (l.foldlM step v).isSome := by
  intro l
  induction l with
  | nil =>
    intro v _
    rw [List.foldlM_nil]
    rfl
  | cons a l ih =>
    intro v hv
    rw [List.foldlM_cons]
    simp only [Option.bind_eq_bind]
    obtain ⟨v', hv', hb⟩ := hstep v a hv
    rw [hv', Option.some_bind]
    exact ih v' hb

/-- The recursion completes whenever the fuel covers the number of
distinct unvisited filesystem entries: fuel is consumed only when
expanding a newly-visited file that exists, which strictly shrinks the
unvisited part of the filesystem. -/
theorem crfrGo_isSome (fsys : FileSys) :
    ∀ (fuel : Nat) (uses : List String) (dir : Path) (visited : List Path),
    remainingCount fsys visited ≤ fuel →
    (crfrGo fsys fuel uses dir visited).isSome := by
  intro fuel
  induction fuel with
  | zero =>
    intro uses dir visited hrem
    rw [crfrGo_zero_eq]
    apply foldlM_isSome_of_step _ (remainingCount fsys) 0 ?_ uses visited hrem
    intro v u hv
    unfold crfrStep
    by_cases hc1 : ¬ strEndsWith u ".ump"
    · exact ⟨v, by rw [if_pos hc1], hv⟩
    · rw [if_neg hc1]
      by_cases hc2 : resolvePath dir u ∈ v
      · exact ⟨v, by rw [if_pos hc2], hv⟩
      · rw [if_neg hc2]
        rcases hfs : fsLookup fsys (resolvePath dir u) with _ | content
        · refine ⟨v ++ [resolvePath dir u], by simp only [hfs], ?_⟩
          exact Nat.le_trans (remainingCount_le_of_subset fsys _ _
            (fun x hx => List.mem_append.mpr (Or.inl hx))) hv
        · exfalso
          have hdom := fsLookup_mem_dom fsys _ _ hfs
          have hlt := remainingCount_lt fsys v (resolvePath dir u) hdom hc2
          omega
  | succ fuel' ih =>
    intro uses dir visited hrem
    rw [crfrGo_succ_eq]
    apply foldlM_isSome_of_step _ (remainingCount fsys) (fuel' + 1) ?_ uses
      visited hrem
    intro v u hv
    unfold crfrStep
    by_cases hc1 : ¬ strEndsWith u ".ump"
    · exact ⟨v, by rw [if_pos hc1], hv⟩
    · rw [if_neg hc1]
      by_cases hc2 : resolvePath dir u ∈ v
      · exact ⟨v, by rw [if_pos hc2], hv⟩
      · rw [if_neg hc2]
        rcases hfs : fsLookup fsys (resolvePath dir u) with _ | content
        · refine ⟨v ++ [resolvePath dir u], by simp only [hfs], ?_⟩
          exact Nat.le_trans (remainingCount_le_of_subset fsys _ _
            (fun x hx => List.mem_append.mpr (Or.inl hx))) hv
        · have hdom := fsLookup_mem_dom fsys _ _ hfs
          have hlt := remainingCount_lt fsys v (resolvePath dir u) hdom hc2
          have hinner := ih (extractUseStatements content)
            (dirname (resolvePath dir u)) (v ++ [resolvePath dir u]) (by omega)
          rcases hv' : crfrGo fsys fuel' (extractUseStatements content)
              (dirname (resolvePath dir u)) (v ++ [resolvePath dir u]) with _ | v'
          · rw [hv'] at hinner; cases hinner
          · refine ⟨v', by simp only [hfs]; exact hv', ?_⟩
            have hsub : ∀ x ∈ v ++ [resolvePath dir u], x ∈ v' :=
              crfrGo_mono fsys _ _ _ _ v' hv'
            have hle := remainingCount_le_of_subset fsys _ _ hsub
            omega

/-- C2: reachability terminates on every import graph (the wrapper's
fuel always suffices), and on the two-file cycle
`A.ump ∋ use B.ump; B.ump ∋ use A.ump` it returns exactly the set of
the two absolute normalized paths of `A.ump` and `B.ump`. -/
theorem collectReachableFiles_terminates_and_cycle_safe :
    (∀ (fsys : FileSys) (filePath : Path) (content : Content)
        (documentDir : Path),
      (collectReachableFiles fsys filePath content documentDir).isSome) ∧
    (∃ out, collectReachableFiles
        [(["ws", "A.ump"], [⟨"B.ump", 0⟩]), (["ws", "B.ump"], [⟨"A.ump", 0⟩])]
        ["ws", "A.ump"] [⟨"B.ump", 0⟩] ["ws"] = some out ∧
      (∀ x, x ∈ out ↔ (x = ["ws", "A.ump"] ∨ x = ["ws", "B.ump"])) ∧
      normalizePath ["ws", "A.ump"] = ["ws", "A.ump"] ∧
      normalizePath ["ws", "B.ump"] = ["ws", "B.ump"]) := by
  constructor
  · intro fsys filePath content documentDir
    unfold collectReachableFiles
    exact crfrGo_isSome fsys _ _ _ _ (Nat.le_succ _)
  · exact ⟨[["ws", "B.ump"], ["ws", "A.ump"]], by decide,
      by intro x; simp [List.mem_cons]; tauto, by decide, by decide⟩

/-- Modelled from the spec: "recurses into each newly-discovered file's
own content — reading from disk unless an open/unsaved version exists,
in which case that content is preferred."  Identical to `crfrStep`
except that the use statements of a newly-discovered file are extracted
from the open/unsaved editor content of that file when one exists. -/
def crfrStepPreferOpen (fsys : FileSys) (openDocs : List (Path × Content))
    (recur : List String → Path → List Path → Option (List Path))
    (dir : Path) (visited : List Path) (usePath : String) :
    Option (List Path) :=
  if ¬ strEndsWith usePath ".ump" then some visited
  else if resolvePath dir usePath ∈ visited then some visited
  else
    match fsLookup fsys (resolvePath dir usePath) with
    | none => some (visited ++ [resolvePath dir usePath])
    | some content =>
        recur (extractUseStatements
            ((mapGet openDocs (resolvePath dir usePath)).getD content))
          (dirname (resolvePath dir usePath))
          (visited ++ [resolvePath dir usePath])

/-- Modelled from the spec: the fuelled recursion of the open-content
preferring reachability described in §4.5. -/
def crfrGoPreferOpen (fsys : FileSys) (openDocs : List (Path × Content)) :
    Nat → List String → Path → List Path → Option (List Path)
  | 0, uses, dir, visited =>
      uses.foldlM (crfrStepPreferOpen fsys openDocs (fun _ _ _ => none) dir)
        visited
  | fuel + 1, uses, dir, visited =>
      uses.foldlM
        (crfrStepPreferOpen fsys openDocs (crfrGoPreferOpen fsys openDocs fuel)
          dir) visited
termination_by structural fuel _ _ _ => fuel

/-- Modelled from the spec: wrapper of `crfrGoPreferOpen` from an empty
visited set. -/
def collectReachableFilesPreferOpen (fsys : FileSys)
    (openDocs : List (Path × Content)) (filePath : Path) (content : Content)
    (documentDir : Path) : Option (List Path) :=
  crfrGoPreferOpen fsys openDocs (remainingCount fsys [] + 1)
    (extractUseStatements content) documentDir []

/-- C7 counterexample: `A.ump` imports `B.ump`; `B.ump` on disk imports
`C.ump`, while the open editor version of `B.ump` imports `D.ump`.  The
code reaches `C.ump` (disk content) and not `D.ump`; the behaviour the
claim describes would reach `D.ump` instead.  The code never consults
the open documents during reachability. -/
theorem collectReachable_ignores_open_docs_counterexample :
    collectReachableFiles
        [(["ws", "A.ump"], [⟨"B.ump", 0⟩]), (["ws", "B.ump"], [⟨"C.ump", 0⟩])]
        ["ws", "A.ump"] [⟨"B.ump", 0⟩] ["ws"] =
      some [["ws", "B.ump"], ["ws", "C.ump"]] ∧
    collectReachableFilesPreferOpen
        [(["ws", "A.ump"], [⟨"B.ump", 0⟩]), (["ws", "B.ump"], [⟨"C.ump", 0⟩])]
        [(["ws", "B.ump"], [⟨"D.ump", 0⟩])]
        ["ws", "A.ump"] [⟨"B.ump", 0⟩] ["ws"] =
      some [["ws", "B.ump"], ["ws", "D.ump"]] ∧
    (some [["ws", "B.ump"], ["ws", "C.ump"]] : Option (List Path)) ≠
      some [["ws", "B.ump"], ["ws", "D.ump"]] := by
  exact ⟨by decide, by decide, by decide⟩

theorem crfrGoPreferOpen_nil_docs (fsys : FileSys) :
    ∀ (fuel : Nat) (uses : List String) (dir : Path) (visited : List Path),
    crfrGoPreferOpen fsys [] fuel uses dir visited =
      crfrGo fsys fuel uses dir visited := by
  intro fuel
  induction fuel with
  | zero =>
    intro uses dir visited
    show uses.foldlM (crfrStepPreferOpen fsys [] (fun _ _ _ => none) dir)
        visited = _
    have hstep : crfrStepPreferOpen fsys [] (fun _ _ _ => none) dir =
        crfrStep fsys (fun _ _ _ => none) dir := by
      funext v u
      unfold crfrStepPreferOpen crfrStep
      rcases fsLookup fsys (resolvePath dir u) with _ | content <;> rfl
    rw [hstep]
    rfl
  | succ fuel' ih =>
    intro uses dir visited
    show uses.foldlM
        (crfrStepPreferOpen fsys [] (crfrGoPreferOpen fsys [] fuel') dir)
        visited = _
    have hrec : crfrGoPreferOpen fsys [] fuel' = crfrGo fsys fuel' :=
      funext fun a => funext fun b => funext fun c => ih a b c
    have hstep : crfrStepPreferOpen fsys [] (crfrGoPreferOpen fsys [] fuel')
        dir = crfrStep fsys (crfrGo fsys fuel') dir := by
      rw [hrec]
      funext v u
      unfold crfrStepPreferOpen crfrStep
      rcases fsLookup fsys (resolvePath dir u) with _ | content <;> rfl
    rw [hstep]
    rfl

/-- C7 amended: the reachability recursion always reads a
newly-discovered file's content from disk; open/unsaved editor versions
are not consulted (it behaves exactly as the open-preferring recursion
would with no open documents). -/
theorem collectReachable_reads_disk_only (fsys : FileSys) (filePath : Path)
    (content : Content) (documentDir : Path) :
    collectReachableFilesPreferOpen fsys [] filePath content documentDir =
      collectReachableFiles fsys filePath content documentDir := by
  unfold collectReachableFilesPreferOpen collectReachableFiles
  rw [crfrGoPreferOpen_nil_docs]

/-! ## Import maps and diagnostic remapping (server.ts,
`buildImportMaps` / `collectTransitiveFilenames` /
`findUseLineForError` / `parseUmpleJsonDiagnostics`) -/

/-- `Set.add`. -/
def setInsert {α : Type} [DecidableEq α] (l : List α) (x : α) : List α :=
  if x ∈ l then l else l ++ [x]

/-- The loop body of `collectTransitiveFilenames` for one use
statement: skip non-`.ump` targets, resolve against the file's
directory, add the basename to the collected set and recurse into the
resolved path.  The state is `(collected, visited)`. -/
def ctfUseStep (fsys : FileSys)
    (recur : Path → List String × List Path → Option (List String × List Path))
    (fileDir : Path) (st : List String × List Path) (usePath : String) :
    Option (List String × List Path) :=
  if ¬ strEndsWith usePath ".ump" then some st
  else
    recur (resolvePath fileDir usePath)
      (setInsert st.1 (basename (resolvePath fileDir usePath)), st.2)

/-- The body of `collectTransitiveFilenames` for one file: return if
already visited, mark visited, return if missing on disk, else process
the file's use statements. -/
def ctfVisit (fsys : FileSys)
    (recur : Path → List String × List Path → Option (List String × List Path))
    (p : Path) (st : List String × List Path) :
    Option (List String × List Path) :=
  if p ∈ st.2 then some st
  else
    match fsLookup fsys p with
    | none => some (st.1, st.2 ++ [p])
    | some content =>
        (extractUseStatements content).foldlM
          (ctfUseStep fsys recur (dirname p)) (st.1, st.2 ++ [p])

/-- Fuelled recursion of `collectTransitiveFilenames` (fuel is the
recursion-depth bound; `none` only on exhaustion). -/
def ctfGo (fsys : FileSys) :
    Nat → Path → List String × List Path → Option (List String × List Path)
  | 0, p, st => ctfVisit fsys (fun _ _ => none) p st
  | fuel + 1, p, st => ctfVisit fsys (ctfGo fsys fuel) p st
termination_by structural fuel _ _ => fuel

theorem ctfGo_zero_eq (fsys : FileSys) (p : Path) (st : List String × List Path) :
    ctfGo fsys 0 p st = ctfVisit fsys (fun _ _ => none) p st := rfl

theorem ctfGo_succ_eq (fsys : FileSys) (fuel : Nat) (p : Path)
    (st : List String × List Path) :
    ctfGo fsys (fuel + 1) p st = ctfVisit fsys (ctfGo fsys fuel) p st := rfl

/-- `collectTransitiveFilenames(filePath, collected)` with a fresh
visited set and enough fuel for every filesystem entry. -/
def collectTransitiveFilenames (fsys : FileSys) (p : Path)
    (collected : List String) : Option (List String × List Path) :=
  ctfGo fsys (remainingCount fsys [] + 1) p (collected, [])

/-- `buildImportMaps(useStatements, documentDir)`: direct-import
filename → use line, and direct-import filename → transitive filename
set.  A later use statement with an equal basename overwrites both
entries (JS `Map.set`). -/
def buildImportStep (fsys : FileSys) (documentDir : Path)
    (maps : List (String × Nat) × List (String × List String))
    (useStmt : UseStmt) :
    Option (List (String × Nat) × List (String × List String)) :=
  -- Skip mixset names (no .ump extension = not a file reference)
  if ¬ strEndsWith useStmt.path ".ump" then some maps
  else
    match collectTransitiveFilenames fsys
        (resolvePath documentDir useStmt.path)
        [basename (resolvePath documentDir useStmt.path)] with
    | none => none
    | some (collected, _) =>
        some (mapSet maps.1
                (basename (resolvePath documentDir useStmt.path)) useStmt.line,
              mapSet maps.2
                (basename (resolvePath documentDir useStmt.path)) collected)

def buildImportMaps (fsys : FileSys) (useStatements : List UseStmt)
    (documentDir : Path) :
    Option (List (String × Nat) × List (String × List String)) :=
  useStatements.foldlM (buildImportStep fsys documentDir) ([], [])

/-- `findUseLineForError`: a direct-import hit wins; otherwise the
first transitive set containing the filename decides (and the search
stops there even if the direct lookup then fails). -/
def findUseLineForError (errorFilename : String)
    (directImports : List (String × Nat))
    (transitiveMap : List (String × List String)) : Option Nat :=
  match mapGet directImports errorFilename with
  | some line => some line
  | none =>
      match transitiveMap.find? (fun kt => errorFilename ∈ kt.2) with
      | some kt => mapGet directImports kt.1
      | none => none

/-- A record of the validator's JSON result array.  `severity` is the
numeric value of the `severity` field (`Number(result.severity ?? "3")`
at the JSON boundary); `line` stays a string, used raw in messages and
parsed in the own-file branch. -/
structure UmpleJsonResult where
  errorCode : Option String
  severity : Option Nat
  line : Option String
  filename : Option String
  message : Option String
deriving DecidableEq, Repr

/-- JS template-literal interpolation of a possibly-absent field. -/
def interpOpt (s : Option String) : String := s.getD "undefined"

/-- Decimal parse of the validator's line field.  The validator emits
decimal line numbers; `Math.max(Number(line ?? "1") - 1, 0)` is `n - 1`
in natural subtraction.  (Non-numeric strings make the original
arithmetic produce `NaN`; they are outside the model's scope.) -/
def jsLineNumber (s : Option String) : Nat :=
  if (s.getD "1").data ≠ [] ∧ (s.getD "1").data.all Char.isDigit then
    ((s.getD "1").data.foldl (fun n c => n * 10 + (c.toNat - 48)) 0) - 1
  else 0

/-- The `W`/`E`-prefixed error code string (empty when the result has
no usable error code). -/
def diagErrorCode (severity : Nat) (r : UmpleJsonResult) : String :=
  match r.errorCode with
  | some ec =>
      if ec ≠ "" then (if severity = 2 then "W" else "E") ++ ec else ""
  | none => ""

/-- The own-file branch of the diagnostics loop: 1-based to 0-based
line, clamp start to the first non-whitespace column and end to the
line length, join error code and message. -/
def ownFileDiagnostic (lines : List String) (severity : Nat)
    (r : UmpleJsonResult) : Diagnostic :=
  let lineNumber := jsLineNumber r.line
  let lineText := lines.getD lineNumber ""
  let startChar := (lineText.data.findIdx? (fun c => ¬ c.isWhitespace)).getD 0
  let errorCode := diagErrorCode severity r
  let parts :=
    (if errorCode ≠ "" then [errorCode] else []) ++
      (match r.message with
       | some m => if m ≠ "" then [m] else []
       | none => [])
  { severity := severity,
    range := ⟨⟨lineNumber, startChar⟩, ⟨lineNumber, lineText.data.length⟩⟩,
    message := String.intercalate ": " parts,
    source := "umple" }

/-- The per-result body of the loop in `parseUmpleJsonDiagnostics`. -/
def processResult (lines : List String) (tempFilename : String)
    (directImports : List (String × Nat))
    (transitiveMap : List (String × List String)) (r : UmpleJsonResult) :
    List Diagnostic :=
  let severityValue := r.severity.getD 3
  let severity := if severityValue > 2 then 2 else 1
  match r.filename with
  | some fn =>
      -- `if (result.filename && result.filename !== tempFilename)`
      if fn ≠ "" ∧ fn ≠ tempFilename then
        match findUseLineForError fn directImports transitiveMap with
        | none => []  -- no mapping found: the result is dropped
        | some useLine =>
            let useLineText := lines.getD useLine ""
            let errorCode := diagErrorCode severity r
            let message :=
              if errorCode ≠ "" then
                "In imported file (" ++ fn ++ ":" ++ interpOpt r.line ++
                  "): " ++ errorCode ++ ": " ++ interpOpt r.message
              else
                "In imported file (" ++ fn ++ ":" ++ interpOpt r.line ++
                  "): " ++ interpOpt r.message
            [{ severity := severity,
               range := ⟨⟨useLine, 0⟩, ⟨useLine, useLineText.data.length⟩⟩,
               message := message, source := "umple" }]
      else [ownFileDiagnostic lines severity r]
  | none => [ownFileDiagnostic lines severity r]

/-- The result loop of `parseUmpleJsonDiagnostics`. -/
def parseUmpleJsonDiagnosticsLoop (lines : List String) (tempFilename : String)
    (directImports : List (String × Nat))
    (transitiveMap : List (String × List String))
    (results : List UmpleJsonResult) : List Diagnostic :=
  results.flatMap (processResult lines tempFilename directImports transitiveMap)

/-- File-level reachability along `use` edges: `PathReach fsys p q`
holds when `q` is reached from `p` by following `.ump` use statements
of files present on disk. -/
inductive PathReach (fsys : FileSys) : Path → Path → Prop
  | refl (p : Path) : PathReach fsys p p
  | step {p q : Path} (hq : PathReach fsys p q) {content : Content}
      (hc : fsLookup fsys q = some content) {u : UseStmt} (hu : u ∈ content)
      (hump : strEndsWith u.path ".ump" = true) :
      PathReach fsys p (resolvePath (dirname q) u.path)

theorem PathReach.trans {fsys : FileSys} {a b c : Path}
    (hab : PathReach fsys a b) (hbc : PathReach fsys b c) :
    PathReach fsys a c := by
  induction hbc with
  | refl => exact hab
  | step hq hc hu hump ih => exact PathReach.step ih hc hu hump

/-- C9: a result for a filename that is neither the shadow target nor
present in the direct or transitive import maps produces no diagnostic
at all: the result is dropped. -/
theorem orphaned_import_result_dropped
    (lines : List String) (tempFilename : String)
    (direct : List (String × Nat)) (trans : List (String × List String))
    (r : UmpleJsonResult) (fn : String)
    (hfn : r.filename = some fn) (hne : fn ≠ "") (hnt : fn ≠ tempFilename)
    (hdirect : mapGet direct fn = none)
    (htrans : ∀ kt ∈ trans, fn ∉ kt.2) :
    processResult lines tempFilename direct trans r = [] := by
  have hfind : findUseLineForError fn direct trans = none := by
    unfold findUseLineForError
    rw [hdirect]
    have hf : trans.find? (fun kt => fn ∈ kt.2) = none :=
      List.find?_eq_none.mpr (fun kt hkt => by simpa using htrans kt hkt)
    rw [hf]
  simp only [processResult, hfn]
  rw [if_pos ⟨hne, hnt⟩]
  simp only [hfind]

theorem mem_setInsert_of_mem {α : Type} [DecidableEq α]
    (l : List α) (a x : α) (hx : x ∈ l) : x ∈ setInsert l a := by
  unfold setInsert
  by_cases h : a ∈ l
  · rw [if_pos h]; exact hx
  · rw [if_neg h]; exact List.mem_append.mpr (Or.inl hx)

theorem mem_setInsert_self {α : Type} [DecidableEq α] (l : List α) (a : α) :
    a ∈ setInsert l a := by
  unfold setInsert
  by_cases h : a ∈ l
  · rw [if_pos h]; exact h
  · rw [if_neg h]; exact List.mem_append.mpr (Or.inr (List.mem_singleton.mpr rfl))

/-- State-monotonicity of the transitive-filename fold, given it for
the recursive call. -/
theorem ctfFold_mono (fsys : FileSys)
    (recur : Path → List String × List Path → Option (List String × List Path))
    (fileDir : Path)
    (hrec : ∀ q st out, recur q st = some out →
      (∀ x ∈ st.1, x ∈ out.1) ∧ (∀ y ∈ st.2, y ∈ out.2)) :
    ∀ (uses : List String) (st out : List String × List Path),
      uses.foldlM (ctfUseStep fsys recur fileDir) st = some out →
      (∀ x ∈ st.1, x ∈ out.1) ∧ (∀ y ∈ st.2, y ∈ out.2) := by
  intro uses
  induction uses with
  | nil =>
    intro st out h
    rw [List.foldlM_nil] at h
    injection h with h1
    rw [← h1]
    exact ⟨fun _ hx => hx, fun _ hy => hy⟩
  | cons u rest ih =>
    intro st out h
    rw [List.foldlM_cons] at h
    simp only [Option.bind_eq_bind, Option.bind_eq_some] at h
    obtain ⟨st₁, h1, h2⟩ := h
    have hstep : (∀ x ∈ st.1, x ∈ st₁.1) ∧ (∀ y ∈ st.2, y ∈ st₁.2) := by
      unfold ctfUseStep at h1
      by_cases hc : ¬ strEndsWith u ".ump"
      · rw [if_pos hc] at h1
        injection h1 with he
        rw [← he]
        exact ⟨fun _ hx => hx, fun _ hy => hy⟩
      · rw [if_neg hc] at h1
        have hr := hrec _ _ _ h1
        exact ⟨fun x hx => hr.1 x (mem_setInsert_of_mem _ _ x hx),
          fun y hy => hr.2 y hy⟩
    obtain ⟨hc1, hc2⟩ := ih st₁ out h2
    exact ⟨fun x hx => hc1 x (hstep.1 x hx), fun y hy => hc2 y (hstep.2 y hy)⟩

theorem ctfVisit_mono (fsys : FileSys)
    (recur : Path → List String × List Path → Option (List String × List Path))
    (hrec : ∀ q st out, recur q st = some out →
      (∀ x ∈ st.1, x ∈ out.1) ∧ (∀ y ∈ st.2, y ∈ out.2)) :
    ∀ p st out, ctfVisit fsys recur p st = some out →
      (∀ x ∈ st.1, x ∈ out.1) ∧ (∀ y ∈ st.2, y ∈ out.2) := by
  intro p st out h
  unfold ctfVisit at h
  by_cases hv : p ∈ st.2
  · rw [if_pos hv] at h
    injection h with h1
    rw [← h1]
    exact ⟨fun _ hx => hx, fun _ hy => hy⟩
  · rw [if_neg hv] at h
    rcases hfs : fsLookup fsys p with _ | content
    · simp only [hfs] at h
      injection h with h1
      rw [← h1]
      exact ⟨fun _ hx => hx, fun y hy => List.mem_append.mpr (Or.inl hy)⟩
    · simp only [hfs] at h
      have hfold := ctfFold_mono fsys recur (dirname p) hrec _ _ _ h
      exact ⟨fun x hx => hfold.1 x hx,
        fun y hy => hfold.2 y (List.mem_append.mpr (Or.inl hy))⟩

theorem ctfGo_mono (fsys : FileSys) :
    ∀ (fuel : Nat) (p : Path) (st out : List String × List Path),
      ctfGo fsys fuel p st = some out →
      (∀ x ∈ st.1, x ∈ out.1) ∧ (∀ y ∈ st.2, y ∈ out.2) := by
  intro fuel
  induction fuel with
  | zero =>
    intro p st out h
    rw [ctfGo_zero_eq] at h
    exact ctfVisit_mono fsys _ (fun q st out h => by cases h) p st out h
  | succ fuel' ih =>
    intro p st out h
    rw [ctfGo_succ_eq] at h
    exact ctfVisit_mono fsys _ ih p st out h

/-- Closure of a `(collected, visited)` state: every visited file
outside the in-progress set `E` has all its `.ump` use targets visited
and their basenames collected. -/
def ctfClosed (fsys : FileSys) (C : List String) (V : List Path)
    (E : List Path) : Prop :=
  ∀ q ∈ V, q ∉ E → ∀ content, fsLookup fsys q = some content →
    ∀ u ∈ content, strEndsWith u.path ".ump" = true →
      resolvePath (dirname q) u.path ∈ V ∧
      basename (resolvePath (dirname q) u.path) ∈ C

theorem ctfClosed_grow_C (fsys : FileSys) (C C' : List String)
    (V E : List Path) (h : ctfClosed fsys C V E) (hsub : ∀ x ∈ C, x ∈ C') :
    ctfClosed fsys C' V E := by
  intro q hq hqE content hc u hu hump
  obtain ⟨h1, h2⟩ := h q hq hqE content hc u hu hump
  exact ⟨h1, hsub _ h2⟩

theorem ctfFold_closed (fsys : FileSys)
    (recur : Path → List String × List Path → Option (List String × List Path))
    (fileDir : Path) (E : List Path)
    (hrecM : ∀ q st out, recur q st = some out →
      (∀ x ∈ st.1, x ∈ out.1) ∧ (∀ y ∈ st.2, y ∈ out.2))
    (hrecC : ∀ q st out, ctfClosed fsys st.1 st.2 E → recur q st = some out →
      ctfClosed fsys out.1 out.2 E ∧ q ∈ out.2) :
    ∀ (uses : List String) (st out : List String × List Path),
      ctfClosed fsys st.1 st.2 E →
      uses.foldlM (ctfUseStep fsys recur fileDir) st = some out →
      ctfClosed fsys out.1 out.2 E ∧
      ∀ u ∈ uses, strEndsWith u ".ump" = true →
        resolvePath fileDir u ∈ out.2 ∧
        basename (resolvePath fileDir u) ∈ out.1 := by
  intro uses
  induction uses with
  | nil =>
    intro st out hcl h
    rw [List.foldlM_nil] at h
    injection h with h1
    rw [← h1]
    exact ⟨hcl, by simp⟩
  | cons u rest ih =>
    intro st out hcl h
    rw [List.foldlM_cons] at h
    simp only [Option.bind_eq_bind, Option.bind_eq_some] at h
    obtain ⟨st₁, h1, h2⟩ := h
    by_cases hc : ¬ strEndsWith u ".ump"
    · have hst₁ : st₁ = st := by
        unfold ctfUseStep at h1
        rw [if_pos hc] at h1
        injection h1 with he
        exact he.symm
      subst hst₁
      obtain ⟨hcl', hobl⟩ := ih st₁ out hcl h2
      refine ⟨hcl', ?_⟩
      intro u' hu' hump
      rcases List.mem_cons.mp hu' with h0 | hmem
      · subst h0; exact absurd hump (by simpa using hc)
      · exact hobl u' hmem hump
    · have h1' : recur (resolvePath fileDir u)
          (setInsert st.1 (basename (resolvePath fileDir u)), st.2) =
          some st₁ := by
        unfold ctfUseStep at h1
        rw [if_neg hc] at h1
        exact h1
      have hcl₁ : ctfClosed fsys
          (setInsert st.1 (basename (resolvePath fileDir u))) st.2 E :=
        ctfClosed_grow_C fsys _ _ _ _ hcl
          (fun x hx => mem_setInsert_of_mem _ _ x hx)
      obtain ⟨hclosed₁, hrV⟩ := hrecC _ _ _ hcl₁ h1'
      have hbn₁ : basename (resolvePath fileDir u) ∈ st₁.1 :=
        (hrecM _ _ _ h1').1 _ (mem_setInsert_self _ _)
      obtain ⟨hcl', hobl⟩ := ih st₁ out hclosed₁ h2
      have hfoldM := ctfFold_mono fsys recur fileDir hrecM rest st₁ out h2
      refine ⟨hcl', ?_⟩
      intro u' hu' hump
      rcases List.mem_cons.mp hu' with h0 | hmem
      · subst h0
        exact ⟨hfoldM.2 _ hrV, hfoldM.1 _ hbn₁⟩
      · exact hobl u' hmem hump

theorem ctfVisit_closed (fsys : FileSys)
    (recur : Path → List String × List Path → Option (List String × List Path))
    (hrecM : ∀ q st out, recur q st = some out →
      (∀ x ∈ st.1, x ∈ out.1) ∧ (∀ y ∈ st.2, y ∈ out.2))
    (hrecC : ∀ (E : List Path) q st out, ctfClosed fsys st.1 st.2 E →
      recur q st = some out → ctfClosed fsys out.1 out.2 E ∧ q ∈ out.2) :
    ∀ (E : List Path) (p : Path) (st out : List String × List Path),
      ctfClosed fsys st.1 st.2 E → ctfVisit fsys recur p st = some out →
      ctfClosed fsys out.1 out.2 E ∧ p ∈ out.2 := by
  intro E p st out hcl h
  unfold ctfVisit at h
  by_cases hv : p ∈ st.2
  · rw [if_pos hv] at h
    injection h with h1
    rw [← h1]
    exact ⟨hcl, hv⟩
  · rw [if_neg hv] at h
    rcases hfs : fsLookup fsys p with _ | content
    · simp only [hfs] at h
      injection h with h1
      rw [← h1]
      constructor
      · intro q hq hqE content' hc' u hu hump
        rcases List.mem_append.mp hq with hq0 | hq1
        · obtain ⟨ha, hb⟩ := hcl q hq0 hqE content' hc' u hu hump
          exact ⟨List.mem_append.mpr (Or.inl ha), hb⟩
        · rw [List.mem_singleton.mp hq1] at hc'
          rw [hfs] at hc'
          cases hc'
      · exact List.mem_append.mpr (Or.inr (List.mem_singleton.mpr rfl))
    · simp only [hfs] at h
      have hcl' : ctfClosed fsys st.1 (st.2 ++ [p]) (p :: E) := by
        intro q hq hqE content' hc' u hu hump
        rcases List.mem_append.mp hq with hq0 | hq1
        · have hqE' : q ∉ E := fun hmem => hqE (List.mem_cons_of_mem p hmem)
          obtain ⟨ha, hb⟩ := hcl q hq0 hqE' content' hc' u hu hump
          exact ⟨List.mem_append.mpr (Or.inl ha), hb⟩
        · exact absurd (List.mem_cons_self p E)
            ((List.mem_singleton.mp hq1) ▸ hqE)
      obtain ⟨hclosed, hobl⟩ := ctfFold_closed fsys recur (dirname p) (p :: E)
        hrecM (hrecC (p :: E)) (extractUseStatements content)
        (st.1, st.2 ++ [p]) out hcl' h
      have hfoldM := ctfFold_mono fsys recur (dirname p) hrecM
        (extractUseStatements content) (st.1, st.2 ++ [p]) out h
      have hpV : p ∈ out.2 :=
        hfoldM.2 p (List.mem_append.mpr (Or.inr (List.mem_singleton.mpr rfl)))
      refine ⟨?_, hpV⟩
      intro q hq hqE content' hc' u hu hump
      by_cases hqp : q = p
      · subst hqp
        rw [hfs] at hc'
        injection hc' with hcc
        subst hcc
        exact hobl u.path (List.mem_map_of_mem (·.path) hu) hump
      · exact hclosed q hq
          (fun hmem => (List.mem_cons.mp hmem).elim hqp hqE) content' hc' u hu
          hump

theorem ctfGo_closed (fsys : FileSys) :
    ∀ (fuel : Nat) (E : List Path) (p : Path)
      (st out : List String × List Path),
      ctfClosed fsys st.1 st.2 E → ctfGo fsys fuel p st = some out →
      ctfClosed fsys out.1 out.2 E ∧ p ∈ out.2 := by
  intro fuel
  induction fuel with
  | zero =>
    intro E p st out hcl h
    rw [ctfGo_zero_eq] at h
    exact ctfVisit_closed fsys _ (fun q st out h => by cases h)
      (fun E q st out _ h => by cases h) E p st out hcl h
  | succ fuel' ih =>
    intro E p st out hcl h
    rw [ctfGo_succ_eq] at h
    exact ctfVisit_closed fsys _ (ctfGo_mono fsys fuel')
      (fun E q st out hcl h => ih E q st out hcl h) E p st out hcl h

/-- Completeness of `collectTransitiveFilenames`: the basename of every
file reachable from the root is collected. -/
theorem ctfGo_complete (fsys : FileSys) (fuel : Nat) (d : Path)
    (c₀ : List String) (out : List String × List Path)
    (h : ctfGo fsys fuel d (c₀, []) = some out) (hbn : basename d ∈ c₀) :
    ∀ q, PathReach fsys d q → basename q ∈ out.1 := by
  have hcl0 : ctfClosed fsys c₀ [] [] := by
    intro q hq
    cases hq
  obtain ⟨hcl, hdV⟩ := ctfGo_closed fsys fuel [] d (c₀, []) out hcl0 h
  have hmono := ctfGo_mono fsys fuel d (c₀, []) out h
  have key : ∀ q, PathReach fsys d q → q ∈ out.2 ∧ basename q ∈ out.1 := by
    intro q hq
    induction hq with
    | refl => exact ⟨hdV, hmono.1 _ hbn⟩
    | step hq hc hu hump ih =>
        obtain ⟨hqV, _⟩ := ih
        exact hcl _ hqV (by simp) _ hc _ hu hump
  exact fun q hq => (key q hq).2

theorem mem_setInsert_elim {α : Type} [DecidableEq α]
    (l : List α) (a x : α) (hx : x ∈ setInsert l a) : x ∈ l ∨ x = a := by
  unfold setInsert at hx
  by_cases h : a ∈ l
  · rw [if_pos h] at hx; exact Or.inl hx
  · rw [if_neg h] at hx
    rcases List.mem_append.mp hx with h1 | h2
    · exact Or.inl h1
    · exact Or.inr (List.mem_singleton.mp h2)

theorem ctfFold_sound (fsys : FileSys)
    (recur : Path → List String × List Path → Option (List String × List Path))
    (d p : Path) (content : Content)
    (hp : PathReach fsys d p) (hc : fsLookup fsys p = some content)
    (hrecS : ∀ r st out, PathReach fsys d r → recur r st = some out →
      ∀ x ∈ out.1, x ∈ st.1 ∨ ∃ q, PathReach fsys d q ∧ x = basename q) :
    ∀ (uses : List String) (st out : List String × List Path),
      (∀ u ∈ uses, ∃ stmt ∈ content, stmt.path = u) →
      uses.foldlM (ctfUseStep fsys recur (dirname p)) st = some out →
      ∀ x ∈ out.1, x ∈ st.1 ∨ ∃ q, PathReach fsys d q ∧ x = basename q := by
  intro uses
  induction uses with
  | nil =>
    intro st out _ h x hx
    rw [List.foldlM_nil] at h
    injection h with h1
    rw [← h1] at hx
    exact Or.inl hx
  | cons u rest ih =>
    intro st out hlink h x hx
    rw [List.foldlM_cons] at h
    simp only [Option.bind_eq_bind, Option.bind_eq_some] at h
    obtain ⟨st₁, h1, h2⟩ := h
    have hrest := ih st₁ out
      (fun u' hu' => hlink u' (List.mem_cons_of_mem u hu')) h2 x hx
    rcases hrest with hx₁ | hreach
    · -- trace the element through the single step
      unfold ctfUseStep at h1
      by_cases hcu : ¬ strEndsWith u ".ump"
      · rw [if_pos hcu] at h1
        injection h1 with he
        rw [← he] at hx₁
        exact Or.inl hx₁
      · rw [if_neg hcu] at h1
        have hr : PathReach fsys d (resolvePath (dirname p) u) := by
          obtain ⟨stmt, hstmt, hpath⟩ := hlink u (List.mem_cons_self u rest)
          have hump : strEndsWith stmt.path ".ump" = true := by
            rw [hpath]; simpa using hcu
          have := PathReach.step hp hc hstmt hump
          rw [hpath] at this
          exact this
        have := hrecS _ _ _ hr h1 x hx₁
        rcases this with hx₂ | hreach
        · rcases mem_setInsert_elim _ _ _ hx₂ with hx₃ | hx₄
          · exact Or.inl hx₃
          · exact Or.inr ⟨resolvePath (dirname p) u, hr, hx₄⟩
        · exact Or.inr hreach
    · exact Or.inr hreach

theorem ctfVisit_sound (fsys : FileSys)
    (recur : Path → List String × List Path → Option (List String × List Path))
    (d : Path)
    (hrecS : ∀ r st out, PathReach fsys d r → recur r st = some out →
      ∀ x ∈ out.1, x ∈ st.1 ∨ ∃ q, PathReach fsys d q ∧ x = basename q) :
    ∀ (p : Path) (st out : List String × List Path), PathReach fsys d p →
      ctfVisit fsys recur p st = some out →
      ∀ x ∈ out.1, x ∈ st.1 ∨ ∃ q, PathReach fsys d q ∧ x = basename q := by
  intro p st out hp h x hx
  unfold ctfVisit at h
  by_cases hv : p ∈ st.2
  · rw [if_pos hv] at h
    injection h with h1
    rw [← h1] at hx
    exact Or.inl hx
  · rw [if_neg hv] at h
    rcases hfs : fsLookup fsys p with _ | content
    · simp only [hfs] at h
      injection h with h1
      rw [← h1] at hx
      exact Or.inl hx
    · simp only [hfs] at h
      exact ctfFold_sound fsys recur d p content hp hfs hrecS
        (extractUseStatements content) (st.1, st.2 ++ [p]) out
        (fun u hu => by
          rcases List.mem_map.mp hu with ⟨stmt, hstmt, hpath⟩
          exact ⟨stmt, hstmt, hpath⟩) h x hx

theorem ctfGo_sound (fsys : FileSys) (d : Path) :
    ∀ (fuel : Nat) (p : Path) (st out : List String × List Path),
      PathReach fsys d p → ctfGo fsys fuel p st = some out →
      ∀ x ∈ out.1, x ∈ st.1 ∨ ∃ q, PathReach fsys d q ∧ x = basename q := by
  intro fuel
  induction fuel with
  | zero =>
    intro p st out hp h
    rw [ctfGo_zero_eq] at h
    exact ctfVisit_sound fsys _ d (fun r st out _ h => by cases h) p st out hp h
  | succ fuel' ih =>
    intro p st out hp h
    rw [ctfGo_succ_eq] at h
    exact ctfVisit_sound fsys _ d
      (fun r st out hr h => ih r st out hr h) p st out hp h

theorem mapGet_mem {α β : Type} [DecidableEq α]
    (m : List (α × β)) (k : α) (v : β) (h : mapGet m k = some v) :
    (k, v) ∈ m := by
  unfold mapGet at h
  rcases hf : m.find? (fun kv => kv.1 = k) with _ | kv
  · rw [hf] at h; cases h
  · rw [hf] at h
    have hk : kv.1 = k := by
      have := List.find?_some hf
      simpa using this
    have hv : kv.2 = v := by
      simpa using h
    have hmem := List.mem_of_find?_eq_some hf
    have : kv = (k, v) := Prod.ext hk hv
    rw [← this]
    exact hmem

theorem mem_mapSet_elim {α β : Type} [DecidableEq α]
    (m : List (α × β)) (k : α) (v : β) (kv : α × β)
    (h : kv ∈ mapSet m k v) : kv = (k, v) ∨ kv ∈ m := by
  unfold mapSet at h
  by_cases ha : m.any (fun kv => kv.1 = k)
  · rw [if_pos ha] at h
    rcases List.mem_map.mp h with ⟨kv₀, hkv₀, heq⟩
    by_cases hk : kv₀.1 = k
    · rw [if_pos hk] at heq
      exact Or.inl heq.symm
    · rw [if_neg hk] at heq
      exact Or.inr (heq ▸ hkv₀)
  · rw [if_neg ha] at h
    rcases List.mem_append.mp h with h1 | h2
    · exact Or.inr h1
    · exact Or.inl (List.mem_singleton.mp h2)

/-- Invariant of the state of the `buildImportMaps` fold: every
direct-import entry records the use line of one of the document's
`.ump` use statements keyed by its resolved basename, every
transitive-map entry is exactly the basenames of the files reachable
from the resolved path of one of those use statements, and every
transitive key has a direct entry. -/
def importMapsInv (fsys : FileSys) (docUses : List UseStmt) (docDir : Path)
    (maps : List (String × Nat) × List (String × List String)) : Prop :=
  (∀ e ∈ maps.1, ∃ t ∈ docUses, strEndsWith t.path ".ump" = true ∧
      t.line = e.2 ∧ basename (resolvePath docDir t.path) = e.1) ∧
  (∀ kt ∈ maps.2, ∃ t ∈ docUses, strEndsWith t.path ".ump" = true ∧
      basename (resolvePath docDir t.path) = kt.1 ∧
      (∀ x ∈ kt.2, ∃ q, PathReach fsys (resolvePath docDir t.path) q ∧
        x = basename q) ∧
      (∀ q, PathReach fsys (resolvePath docDir t.path) q →
        basename q ∈ kt.2)) ∧
  (∀ kt ∈ maps.2, ∃ L, mapGet maps.1 kt.1 = some L)

theorem collectTransitiveFilenames_spec (fsys : FileSys) (p : Path)
    (out : List String × List Path)
    (h : collectTransitiveFilenames fsys p [basename p] = some out) :
    (∀ x ∈ out.1, ∃ q, PathReach fsys p q ∧ x = basename q) ∧
    (∀ q, PathReach fsys p q → basename q ∈ out.1) := by
  unfold collectTransitiveFilenames at h
  constructor
  · intro x hx
    rcases ctfGo_sound fsys p _ p ([basename p], []) out (PathReach.refl p) h
        x hx with h1 | h2
    · exact ⟨p, PathReach.refl p, (List.mem_singleton.mp h1)⟩
    · exact h2
  · exact ctfGo_complete fsys _ p [basename p] out h
      (List.mem_singleton.mpr rfl)

theorem buildStep_inv (fsys : FileSys) (docUses : List UseStmt) (docDir : Path)
    (acc m : List (String × Nat) × List (String × List String)) (s : UseStmt)
    (hs : s ∈ docUses) (hinv : importMapsInv fsys docUses docDir acc)
    (h : buildImportStep fsys docDir acc s = some m) :
    importMapsInv fsys docUses docDir m := by
  unfold buildImportStep at h
  by_cases hc : ¬ strEndsWith s.path ".ump"
  · rw [if_pos hc] at h
    injection h with h1
    rw [← h1]
    exact hinv
  · rw [if_neg hc] at h
    rcases hctf : collectTransitiveFilenames fsys (resolvePath docDir s.path)
        [basename (resolvePath docDir s.path)] with _ | out
    · rw [hctf] at h; cases h
    · rw [hctf] at h
      obtain ⟨collected, vis⟩ := out
      injection h with h1
      rw [← h1]
      obtain ⟨hi1, hi2, hi3⟩ := hinv
      obtain ⟨hsound, hcomplete⟩ :=
        collectTransitiveFilenames_spec fsys (resolvePath docDir s.path)
          (collected, vis) hctf
      refine ⟨?_, ?_, ?_⟩
      · intro e he
        rcases mem_mapSet_elim _ _ _ _ he with h0 | h0
        · exact ⟨s, hs, by simpa using hc, by rw [h0], by rw [h0]⟩
        · exact hi1 e h0
      · intro kt hkt
        rcases mem_mapSet_elim _ _ _ _ hkt with h0 | h0
        · refine ⟨s, hs, by simpa using hc, by rw [h0], ?_, ?_⟩
          · intro x hx
            rw [h0] at hx
            exact hsound x hx
          · intro q hq
            rw [h0]
            exact hcomplete q hq
        · exact hi2 kt h0
      · intro kt hkt
        rcases mem_mapSet_elim _ _ _ _ hkt with h0 | h0
        · refine ⟨s.line, ?_⟩
          rw [h0]
          exact mapGet_mapSet_self _ _ _
        · obtain ⟨L, hL⟩ := hi3 kt h0
          by_cases hk : kt.1 = basename (resolvePath docDir s.path)
          · rw [hk]
            exact ⟨s.line, mapGet_mapSet_self _ _ _⟩
          · refine ⟨L, ?_⟩
            rw [mapGet_mapSet_ne _ _ _ _ hk]
            exact hL

theorem buildFold_inv (fsys : FileSys) (docUses : List UseStmt) (docDir : Path) :
    ∀ (l : List UseStmt)
      (acc m : List (String × Nat) × List (String × List String)),
      (∀ u ∈ l, u ∈ docUses) → importMapsInv fsys docUses docDir acc →
      l.foldlM (buildImportStep fsys docDir) acc = some m →
      importMapsInv fsys docUses docDir m := by
  intro l
  induction l with
  | nil =>
    intro acc m _ hinv h
    rw [List.foldlM_nil] at h
    injection h with h1
    rw [← h1]
    exact hinv
  | cons s rest ih =>
    intro acc m hl hinv h
    rw [List.foldlM_cons] at h
    simp only [Option.bind_eq_bind, Option.bind_eq_some] at h
    obtain ⟨acc₁, h1, h2⟩ := h
    exact ih acc₁ m (fun u hu => hl u (List.mem_cons_of_mem s hu))
      (buildStep_inv fsys docUses docDir acc acc₁ s
        (hl s (List.mem_cons_self s rest)) hinv h1) h2

theorem buildImportMaps_inv (fsys : FileSys) (docUses : List UseStmt)
    (docDir : Path) (maps : List (String × Nat) × List (String × List String))
    (h : buildImportMaps fsys docUses docDir = some maps) :
    importMapsInv fsys docUses docDir maps :=
  buildFold_inv fsys docUses docDir docUses ([], []) maps (fun _ hu => hu)
    ⟨fun _ he => absurd he (List.not_mem_nil _),
     fun _ he => absurd he (List.not_mem_nil _),
     fun _ he => absurd he (List.not_mem_nil _)⟩ h

theorem buildFold_preserves_key (fsys : FileSys) (docDir : Path) :
    ∀ (l : List UseStmt)
      (acc m : List (String × Nat) × List (String × List String)) (k : String),
      l.foldlM (buildImportStep fsys docDir) acc = some m →
      (∃ ts, mapGet acc.2 k = some ts) → ∃ ts, mapGet m.2 k = some ts := by
  intro l
  induction l with
  | nil =>
    intro acc m k h hk
    rw [List.foldlM_nil] at h
    injection h with h1
    rw [← h1]
    exact hk
  | cons s rest ih =>
    intro acc m k h hk
    rw [List.foldlM_cons] at h
    simp only [Option.bind_eq_bind, Option.bind_eq_some] at h
    obtain ⟨acc₁, h1, h2⟩ := h
    refine ih acc₁ m k h2 ?_
    unfold buildImportStep at h1
    by_cases hc : ¬ strEndsWith s.path ".ump"
    · rw [if_pos hc] at h1
      injection h1 with he
      rw [← he]
      exact hk
    · rw [if_neg hc] at h1
      rcases hctf : collectTransitiveFilenames fsys (resolvePath docDir s.path)
          [basename (resolvePath docDir s.path)] with _ | out
      · rw [hctf] at h1; cases h1
      · rw [hctf] at h1
        obtain ⟨collected, vis⟩ := out
        injection h1 with he
        rw [← he]
        by_cases hkk : basename (resolvePath docDir s.path) = k
        · refine ⟨collected, ?_⟩
          show mapGet (mapSet acc.2 (basename (resolvePath docDir s.path))
            collected) k = some collected
          rw [← hkk]
          exact mapGet_mapSet_self _ _ _
        · obtain ⟨ts, hts⟩ := hk
          refine ⟨ts, ?_⟩
          show mapGet (mapSet acc.2 (basename (resolvePath docDir s.path))
            collected) k = some ts
          rw [mapGet_mapSet_ne _ _ _ _ (fun he => hkk he.symm)]
          exact hts

theorem buildFold_key_present (fsys : FileSys) (docDir : Path) :
    ∀ (l : List UseStmt)
      (acc m : List (String × Nat) × List (String × List String)),
      l.foldlM (buildImportStep fsys docDir) acc = some m →
      ∀ s ∈ l, strEndsWith s.path ".ump" = true →
        ∃ ts, mapGet m.2 (basename (resolvePath docDir s.path)) = some ts := by
  intro l
  induction l with
  | nil =>
    intro acc m _ s hs
    exact absurd hs (List.not_mem_nil s)
  | cons u rest ih =>
    intro acc m h s hs hsump
    rw [List.foldlM_cons] at h
    simp only [Option.bind_eq_bind, Option.bind_eq_some] at h
    obtain ⟨acc₁, h1, h2⟩ := h
    rcases List.mem_cons.mp hs with h0 | hmem
    · subst h0
      refine buildFold_preserves_key fsys docDir rest acc₁ m _ h2 ?_
      unfold buildImportStep at h1
      rw [if_neg (by simpa using hsump)] at h1
      rcases hctf : collectTransitiveFilenames fsys (resolvePath docDir s.path)
          [basename (resolvePath docDir s.path)] with _ | out
      · rw [hctf] at h1; cases h1
      · rw [hctf] at h1
        obtain ⟨collected, vis⟩ := out
        injection h1 with he
        rw [← he]
        exact ⟨collected, mapGet_mapSet_self _ _ _⟩
    · exact ih acc₁ m h2 s hmem hsump

/-- If the error filename is reachable from a `.ump` use statement of
the document and direct-import basenames identify their resolved paths,
`findUseLineForError` answers the use line of a document use statement
whose import reaches the error file. -/
theorem findUseLine_of_reachable
    (fsys : FileSys) (docUses : List UseStmt) (docDir : Path)
    (maps : List (String × Nat) × List (String × List String))
    (fn : String) (s : UseStmt) (q : Path)
    (hmaps : buildImportMaps fsys docUses docDir = some maps)
    (hdistinct : ∀ t ∈ docUses, ∀ t' ∈ docUses,
      strEndsWith t.path ".ump" = true → strEndsWith t'.path ".ump" = true →
      basename (resolvePath docDir t.path) =
        basename (resolvePath docDir t'.path) →
      resolvePath docDir t.path = resolvePath docDir t'.path)
    (hs : s ∈ docUses) (hsump : strEndsWith s.path ".ump" = true)
    (hreach : PathReach fsys (resolvePath docDir s.path) q)
    (hbn : basename q = fn) :
    ∃ t ∈ docUses, strEndsWith t.path ".ump" = true ∧
      findUseLineForError fn maps.1 maps.2 = some t.line ∧
      ∃ q', PathReach fsys (resolvePath docDir t.path) q' ∧ basename q' = fn := by
  obtain ⟨hi1, hi2, hi3⟩ := buildImportMaps_inv fsys docUses docDir maps hmaps
  rcases hdir : mapGet maps.1 fn with _ | L
  · -- direct lookup miss: the transitive map decides
    obtain ⟨ts₀, hts₀⟩ :=
      buildFold_key_present fsys docDir docUses ([], []) maps hmaps s hs hsump
    have hmem₀ : (basename (resolvePath docDir s.path), ts₀) ∈ maps.2 :=
      mapGet_mem _ _ _ hts₀
    obtain ⟨t₀, ht₀mem, ht₀ump, ht₀bn, _, ht₀comp⟩ := hi2 _ hmem₀
    have hrs : resolvePath docDir t₀.path = resolvePath docDir s.path :=
      hdistinct t₀ ht₀mem s hs ht₀ump hsump (by rw [ht₀bn])
    have hfn₀ : fn ∈ ts₀ := by
      rw [← hbn]
      exact ht₀comp q (hrs ▸ hreach)
    rcases hf : maps.2.find? (fun kt => fn ∈ kt.2) with _ | kt
    · exfalso
      have hno := List.find?_eq_none.mp hf _ hmem₀
      simp at hno
      exact hno hfn₀
    · have hktmem := List.mem_of_find?_eq_some hf
      have hktp : fn ∈ kt.2 := by simpa using List.find?_some hf
      obtain ⟨t₁, ht₁mem, ht₁ump, ht₁bn, ht₁sound, _⟩ := hi2 kt hktmem
      obtain ⟨L, hL⟩ := hi3 kt hktmem
      have hLmem := mapGet_mem _ _ _ hL
      obtain ⟨t₂, ht₂mem, ht₂ump, ht₂line, ht₂bn⟩ := hi1 _ hLmem
      have hr21 : resolvePath docDir t₂.path = resolvePath docDir t₁.path :=
        hdistinct t₂ ht₂mem t₁ ht₁mem ht₂ump ht₁ump (by rw [ht₂bn, ht₁bn])
      obtain ⟨q', hq', hqbn2⟩ := ht₁sound fn hktp
      refine ⟨t₂, ht₂mem, ht₂ump, ?_, ⟨q', hr21 ▸ hq', hqbn2.symm⟩⟩
      simp only [findUseLineForError, hdir, hf, hL, ht₂line]
  · -- direct hit: the entry's own use statement reaches the file itself
    have hLmem := mapGet_mem _ _ _ hdir
    obtain ⟨t, htmem, htump, htline, htbn⟩ := hi1 _ hLmem
    refine ⟨t, htmem, htump, ?_,
      ⟨resolvePath docDir t.path, PathReach.refl _, htbn⟩⟩
    simp only [findUseLineForError, hdir, htline]

/-- Once `findUseLineForError` answers a line, the result becomes a
single diagnostic on that full line, with the origin-disclosing message
prefix. -/
theorem processResult_foundLine
    (lines : List String) (tempFilename : String)
    (direct : List (String × Nat)) (trans : List (String × List String))
    (r : UmpleJsonResult) (fn : String) (useLine : Nat)
    (hfn : r.filename = some fn) (hne : fn ≠ "") (hnt : fn ≠ tempFilename)
    (hfind : findUseLineForError fn direct trans = some useLine) :
    ∃ d rest, processResult lines tempFilename direct trans r = [d] ∧
      d.severity = (if r.severity.getD 3 > 2 then 2 else 1) ∧
      d.range = ⟨⟨useLine, 0⟩, ⟨useLine, (lines.getD useLine "").data.length⟩⟩ ∧
      d.message =
        "In imported file (" ++ fn ++ ":" ++ interpOpt r.line ++ "): " ++
          rest := by
  simp only [processResult, hfn]
  rw [if_pos ⟨hne, hnt⟩]
  simp only [hfind]
  set S := if r.severity.getD 3 > 2 then 2 else 1 with hS
  by_cases hec : diagErrorCode S r = ""
  · rw [if_neg (by simpa using hec)]
    exact ⟨_, interpOpt r.message, rfl, rfl, rfl, rfl⟩
  · rw [if_pos hec]
    refine ⟨_, diagErrorCode S r ++ ": " ++ interpOpt r.message,
      rfl, rfl, rfl, ?_⟩
    simp [String.append_assoc]

/-- C4 (amended): under the additional premise that no two of the
document's `.ump` use statements resolve to distinct files sharing a
basename, a validator result against a foreign filename reachable from
some use statement is remapped to one diagnostic on the full line of a
direct use statement through which the file is reachable, with the
message prefixed `In imported file (<file>:<line>): `. -/
theorem transitive_diagnostic_remapping
    (fsys : FileSys) (docUses : List UseStmt) (docDir : Path)
    (maps : List (String × Nat) × List (String × List String))
    (lines : List String) (tempFilename : String) (r : UmpleJsonResult)
    (fn : String) (s : UseStmt) (q : Path)
    (hmaps : buildImportMaps fsys docUses docDir = some maps)
    (hdistinct : ∀ t ∈ docUses, ∀ t' ∈ docUses,
      strEndsWith t.path ".ump" = true → strEndsWith t'.path ".ump" = true →
      basename (resolvePath docDir t.path) =
        basename (resolvePath docDir t'.path) →
      resolvePath docDir t.path = resolvePath docDir t'.path)
    (hfn : r.filename = some fn) (hne : fn ≠ "") (hnt : fn ≠ tempFilename)
    (hs : s ∈ docUses) (hsump : strEndsWith s.path ".ump" = true)
    (hreach : PathReach fsys (resolvePath docDir s.path) q)
    (hbn : basename q = fn) :
    ∃ t ∈ docUses, strEndsWith t.path ".ump" = true ∧
      (∃ q', PathReach fsys (resolvePath docDir t.path) q' ∧
        basename q' = fn) ∧
      ∃ d rest, processResult lines tempFilename maps.1 maps.2 r = [d] ∧
        d.range.start = ⟨t.line, 0⟩ ∧
        d.range.stop = ⟨t.line, (lines.getD t.line "").data.length⟩ ∧
        d.message =
          "In imported file (" ++ fn ++ ":" ++ interpOpt r.line ++ "): " ++
            rest := by
  obtain ⟨t, htmem, htump, hfle, hq'⟩ :=
    findUseLine_of_reachable fsys docUses docDir maps fn s q hmaps hdistinct
      hs hsump hreach hbn
  obtain ⟨d, rest, hout, _, hrange, hmsg⟩ :=
    processResult_foundLine lines tempFilename maps.1 maps.2 r fn t.line
      hfn hne hnt hfle
  exact ⟨t, htmem, htump, hq', d, rest, hout,
    by rw [hrange], by rw [hrange], hmsg⟩

/-- A workspace whose document imports `a/X.ump` (line 0) and
`b/X.ump` (line 5); `a/X.ump` in turn imports `C.ump`. -/
def fsysC4x : FileSys :=
  [(["ws", "a", "X.ump"], [⟨"C.ump", 0⟩]),
   (["ws", "a", "C.ump"], []),
   (["ws", "b", "X.ump"], [])]

def docUsesC4x : List UseStmt := [⟨"a/X.ump", 0⟩, ⟨"b/X.ump", 5⟩]

def rC4x : UmpleJsonResult :=
  { errorCode := none, severity := some 1, line := some "1",
    filename := some "C.ump", message := some "boom" }

/-- C4 counterexample: with two use statements whose resolved targets
share the basename `X.ump`, the later one overwrites both import-map
entries, so a validator error against `C.ump` — reachable from the
document through the first use statement — is dropped entirely instead
of being remapped to that statement's line. -/
theorem transitive_remapping_basename_collision_counterexample :
    buildImportMaps fsysC4x docUsesC4x ["ws"] =
      some ([("X.ump", 5)], [("X.ump", ["X.ump"])]) ∧
    ((⟨"a/X.ump", 0⟩ : UseStmt) ∈ docUsesC4x ∧
      strEndsWith "a/X.ump" ".ump" = true ∧
      PathReach fsysC4x (resolvePath ["ws"] "a/X.ump") ["ws", "a", "C.ump"] ∧
      basename ["ws", "a", "C.ump"] = "C.ump" ∧
      rC4x.filename = some "C.ump" ∧ "C.ump" ≠ "" ∧ "C.ump" ≠ "D.ump") ∧
    processResult ["line0"] "D.ump" [("X.ump", 5)] [("X.ump", ["X.ump"])]
      rC4x = [] := by
  refine ⟨by decide, ⟨by decide, by decide, ?_, by decide, rfl, by decide,
    by decide⟩, by decide⟩
  have hc : fsLookup fsysC4x (resolvePath ["ws"] "a/X.ump") =
      some [⟨"C.ump", 0⟩] := by decide
  have hu : (⟨"C.ump", 0⟩ : UseStmt) ∈ [(⟨"C.ump", 0⟩ : UseStmt)] := by decide
  have hump : strEndsWith (⟨"C.ump", 0⟩ : UseStmt).path ".ump" = true := by
    decide
  have hstep := PathReach.step
    (@PathReach.refl fsysC4x (resolvePath ["ws"] "a/X.ump"))
    hc hu hump
  have he : resolvePath (dirname (resolvePath ["ws"] "a/X.ump"))
      (⟨"C.ump", 0⟩ : UseStmt).path = ["ws", "a", "C.ump"] := by decide
  exact he ▸ hstep

/-- A workspace with distinct import basenames: the document imports
`B.ump` (line 3), which imports `C.ump`. -/
def fsysC4w : FileSys :=
  [(["ws", "B.ump"], [⟨"C.ump", 0⟩]), (["ws", "C.ump"], [])]

def docUsesC4w : List UseStmt := [⟨"B.ump", 3⟩]

def rC4w : UmpleJsonResult :=
  { errorCode := none, severity := some 1, line := some "2",
    filename := some "C.ump", message := some "boom" }

theorem transitive_diagnostic_remapping_witness :
    ∃ t ∈ docUsesC4w, strEndsWith t.path ".ump" = true ∧
      (∃ q', PathReach fsysC4w (resolvePath ["ws"] t.path) q' ∧
        basename q' = "C.ump") ∧
      ∃ d rest,
        processResult ["l0", "l1", "l2", "l3"] "D.ump"
          ([("B.ump", 3)], [("B.ump", ["B.ump", "C.ump"])]).1
          ([("B.ump", 3)], [("B.ump", ["B.ump", "C.ump"])]).2 rC4w = [d] ∧
        d.range.start = ⟨t.line, 0⟩ ∧
        d.range.stop =
          ⟨t.line, ((["l0", "l1", "l2", "l3"] : List String).getD t.line
            "").data.length⟩ ∧
        d.message =
          "In imported file (" ++ "C.ump" ++ ":" ++ interpOpt rC4w.line ++
            "): " ++ rest := by
  have hreach : PathReach fsysC4w (resolvePath ["ws"] "B.ump")
      ["ws", "C.ump"] := by
    have hc : fsLookup fsysC4w (resolvePath ["ws"] "B.ump") =
        some [⟨"C.ump", 0⟩] := by decide
    have hu : (⟨"C.ump", 0⟩ : UseStmt) ∈ [(⟨"C.ump", 0⟩ : UseStmt)] := by
      decide
    have hump : strEndsWith (⟨"C.ump", 0⟩ : UseStmt).path ".ump" = true := by
      decide
    have hstep := PathReach.step
      (@PathReach.refl fsysC4w (resolvePath ["ws"] "B.ump"))
      hc hu hump
    have he : resolvePath (dirname (resolvePath ["ws"] "B.ump"))
        (⟨"C.ump", 0⟩ : UseStmt).path = ["ws", "C.ump"] := by decide
    exact he ▸ hstep
  exact transitive_diagnostic_remapping fsysC4w docUsesC4w ["ws"]
    ([("B.ump", 3)], [("B.ump", ["B.ump", "C.ump"])])
    ["l0", "l1", "l2", "l3"] "D.ump" rC4w "C.ump" ⟨"B.ump", 3⟩
    ["ws", "C.ump"] (by decide) (by decide) rfl (by decide) (by decide)
    (by decide) (by decide) hreach (by decide)

/-! ## Concrete witnesses for the hypothesis-bearing claim theorems -/

theorem shadow_relative_no_escape_witness :
    (["ws", "a", "A.ump"] : Path) ∈
      [["ws", "a", "A.ump"], ["ws", "b", "B.ump"]] ∧
    (∀ g ∈ [(["ws", "a", "A.ump"] : Path), ["ws", "b", "B.ump"]],
      normalizePath g = g) ∧
    ".." ∉ pathRelative
      (findCommonAncestor [["ws", "a", "A.ump"], ["ws", "b", "B.ump"]])
      ["ws", "a", "A.ump"] :=
  ⟨by decide, by decide,
    shadow_relative_no_escape [["ws", "a", "A.ump"], ["ws", "b", "B.ump"]]
      ["ws", "a", "A.ump"] (by decide) (by decide)⟩

theorem stale_validation_never_published_witness :
    (false = true ∨ (some 5 : Option Int) = none ∨
      ∃ v, (some 5 : Option Int) = some v ∧ (3 : Int) < v) ∧
    publishedDiagnostics false (some 5) 3 (Except.ok []) = none :=
  ⟨Or.inr (Or.inr ⟨5, rfl, by decide⟩),
    stale_validation_never_published false (some 5) 3 (Except.ok [])
      (Or.inr (Or.inr ⟨5, rfl, by decide⟩))⟩

def capsC6w : List RefCapture :=
  [⟨"reference.attribute_method", 0, 20⟩, ⟨"reference.attribute", 2, 12⟩]

theorem resolveDefinitionKinds_most_specific_witness :
    (∀ c ∈ capsC6w, strStartsWith c.name "reference.") ∧
    ((∀ c ∈ capsC6w, ¬ capContainsNode c 5 10) →
      resolveDefinitionKinds capsC6w 5 10 = none) ∧
    (∀ c₀ ∈ capsC6w, capContainsNode c₀ 5 10 →
      ∃ bc ∈ capsC6w, capContainsNode bc 5 10 ∧
        (∀ c ∈ capsC6w, capContainsNode c 5 10 →
          capSpan bc ≤ capSpan c ∧
          (capSpan c = capSpan bc → capKindCount bc ≤ capKindCount c)) ∧
        resolveDefinitionKinds capsC6w 5 10 =
          some (strSplitOn (strDrop bc.name "reference.".length) '_')) :=
  ⟨by decide, resolveDefinitionKinds_most_specific capsC6w 5 10 (by decide)⟩

def capC8w : DefCapture :=
  ⟨"definition.state",
   ⟨"Running", 2, 4, 2, 11,
    [⟨"state_machine", some "sm1"⟩, ⟨"state_machine", some "outer"⟩,
     ⟨"class_definition", some "A"⟩]⟩⟩

def sC8w : SymbolEntry :=
  ⟨"Running", "state", ["ws", "A.ump"], 2, 4, 2, 11, some "outer"⟩

theorem extractSymbols_container_resolution_witness :
    capC8w ∈ [capC8w] ∧
    symbolOfCapture ["ws", "A.ump"] capC8w = some sC8w ∧
    (sC8w ∈ extractSymbols ["ws", "A.ump"] [capC8w] ∧
     ((sC8w.kind = "state" ∨ sC8w.kind = "statemachine") →
       ∀ l₁ a l₂ n, capC8w.node.ancestors = l₁ ++ a :: l₂ →
         (a.type = "state_machine" ∨ a.type = "statemachine_definition") →
         (∀ b ∈ l₂,
           ¬ (b.type = "state_machine" ∨
              b.type = "statemachine_definition")) →
         a.nameField = some n →
         sC8w.container = some n) ∧
     ((¬ (sC8w.kind = "state" ∨ sC8w.kind = "statemachine")) →
       (¬ (sC8w.kind = "attribute" ∨ sC8w.kind = "method" ∨
           sC8w.kind = "template")) →
       sC8w.container = some sC8w.name)) :=
  ⟨by decide, by decide,
    extractSymbols_container_resolution ["ws", "A.ump"] [capC8w] capC8w sC8w
      (by decide) (by decide)⟩

def stC1w : IndexState := ⟨true, [], [], [], []⟩

theorem indexFile_idempotent_witness :
    stC1w.parserReady = true ∧
    (∀ fi, mapGet stC1w.files ["ws", "A.ump"] = some fi →
      fi.contentHash ≠ hashContent "class A {}") ∧
    ((indexFile (fun _ => []) (fun _ => []) stC1w ["ws", "A.ump"]
        "class A {}").1 = true ∧
     (indexFile (fun _ => []) (fun _ => [])
        (indexFile (fun _ => []) (fun _ => []) stC1w ["ws", "A.ump"]
          "class A {}").2 ["ws", "A.ump"] "class A {}").1 = false ∧
     (indexFile (fun _ => []) (fun _ => [])
        (indexFile (fun _ => []) (fun _ => []) stC1w ["ws", "A.ump"]
          "class A {}").2 ["ws", "A.ump"] "class A {}").2 =
       (indexFile (fun _ => []) (fun _ => []) stC1w ["ws", "A.ump"]
         "class A {}").2) :=
  ⟨rfl, fun _ h => Option.noConfusion h,
    indexFile_idempotent_on_same_content (fun _ => []) (fun _ => []) stC1w
      ["ws", "A.ump"] "class A {}" rfl (fun _ h => Option.noConfusion h)⟩

def rC9w : UmpleJsonResult :=
  { errorCode := none, severity := some 1, line := some "1",
    filename := some "Z.ump", message := some "m" }

theorem orphaned_import_result_dropped_witness :
    rC9w.filename = some "Z.ump" ∧ "Z.ump" ≠ "" ∧ "Z.ump" ≠ "T.ump" ∧
    mapGet ([] : List (String × Nat)) "Z.ump" = none ∧
    (∀ kt ∈ [("B.ump", ["B.ump"])], "Z.ump" ∉ kt.2) ∧
    processResult [] "T.ump" [] [("B.ump", ["B.ump"])] rC9w = [] :=
  ⟨rfl, by decide, by decide, rfl, by decide,
    orphaned_import_result_dropped [] "T.ump" [] [("B.ump", ["B.ump"])]
      rC9w "Z.ump" rfl (by decide) (by decide) rfl (by decide)⟩

end UmpleLsp
